import Mathlib

/-!
Verification model of the gojson diff/patch subsystem.

This file is a shallow embedding, in Lean 4, of the diff and patch engines of
the gojson repository (package `diff` in `diff/diff.go`, package `patch`, the
JSON Path query facility in package `jsonpath`, and the value model of package
`types` / the root package).  Pure Go functions become Lean functions; the
in-place pointer mutation performed by the patch engine is rendered in two
complementary ways:

* a value-level model, in which the single working tree is threaded
  functionally (a mutation through a pointer obtained from a path query
  becomes a functional update at the location the query resolved to); and
* an explicit heap model (addresses and a store), used to reason about the
  aliasing between the caller's original tree and the shallow copy that
  `ApplyPatch` makes of the root container.

Go's `float64` numbers are modelled by `Int`: no claim checked here depends on
non-integral or IEEE-specific numeric behaviour.  Functions that recurse
through the value tree by indexed access take an explicit fuel argument; the
exported wrappers pass a fuel bound (`JSONValue.size`, which counts every node
of the tree) that dominates the recursion depth of the Go original, so the
fuel never runs out on the wrapped calls.
-/

namespace Gojson

/-- JSON value model (package `types`): Null, Boolean, Number, String, Array,
Object.  Objects are insertion-ordered association lists, mirroring
`JSONObject`'s `keys` slice plus `properties` map. -/
inductive JSONValue where
  | null : JSONValue
  | bool (b : Bool) : JSONValue
  | num (n : Int) : JSONValue
  | str (s : String) : JSONValue
  | arr (elems : List JSONValue) : JSONValue
  | obj (props : List (String × JSONValue)) : JSONValue

mutual

/-- Number of nodes of a JSON tree; used as a fuel bound for functions that
the Go source writes as recursion over the tree. -/
def JSONValue.size : JSONValue → Nat
  | .null | .bool _ | .num _ | .str _ => 1
  | .arr elems => 1 + JSONValue.sizeList elems
  | .obj props => 1 + JSONValue.sizeProps props

def JSONValue.sizeList : List JSONValue → Nat
  | [] => 0
  | v :: rest => JSONValue.size v + JSONValue.sizeList rest

def JSONValue.sizeProps : List (String × JSONValue) → Nat
  | [] => 0
  | (_, v) :: rest => JSONValue.size v + JSONValue.sizeProps rest

end

/-- `Type()` of a value (each variant's `Type` method). -/
def JSONValue.typeName : JSONValue → String
  | .null => "null"
  | .bool _ => "boolean"
  | .num _ => "number"
  | .str _ => "string"
  | .arr _ => "array"
  | .obj _ => "object"

/-- `IsNull()`. -/
def JSONValue.isNull : JSONValue → Bool
  | .null => true
  | _ => false

/-- `IsObject()`. -/
def JSONValue.isObject : JSONValue → Bool
  | .obj _ => true
  | _ => false

/-- `IsArray()`. -/
def JSONValue.isArray : JSONValue → Bool
  | .arr _ => true
  | _ => false

/-- `AsBoolean()` with the error discarded (`oldBool, _ := v.AsBoolean()`),
restricted to the boolean case the diff engine actually reaches. -/
def JSONValue.getBool : JSONValue → Bool
  | .bool b => b
  | _ => false

/-- `AsNumber()` with the error discarded, for the number case. -/
def JSONValue.getNum : JSONValue → Int
  | .num n => n
  | _ => 0

/-- `AsString()` with the error discarded, for the string case. -/
def JSONValue.getStr : JSONValue → String
  | .str s => s
  | _ => ""

/-- `JSONObject.Has`. -/
def objHas (props : List (String × JSONValue)) (key : String) : Bool :=
  props.any (fun p => p.1 == key)

/-- `JSONObject.Get`: value of the key, `NewJSONNull()` when absent. -/
def objGet (props : List (String × JSONValue)) (key : String) : JSONValue :=
  match props.find? (fun p => p.1 == key) with
  | some p => p.2
  | none => .null

/-- `JSONObject.Put`: overwrite in place when the key exists, else append
(the `keys` slice keeps insertion order). -/
def objPut (props : List (String × JSONValue)) (key : String) (v : JSONValue) :
    List (String × JSONValue) :=
  if objHas props key then
    props.map (fun p => if p.1 == key then (key, v) else p)
  else
    props ++ [(key, v)]

/-- `JSONObject.Remove`: delete the key (first occurrence), keep order. -/
def objRemove (props : List (String × JSONValue)) (key : String) :
    List (String × JSONValue) :=
  match props with
  | [] => []
  | p :: rest => if p.1 == key then rest else p :: objRemove rest key

/-- `JSONObject.Keys`. -/
def objKeys (props : List (String × JSONValue)) : List String :=
  props.map Prod.fst

/-- `JSONArray.Get`: `NewJSONNull()` when the index is out of range. -/
def arrGet (elems : List JSONValue) (i : Nat) : JSONValue :=
  elems.getD i JSONValue.null

/-- `JSONArray.Set`: pads with nulls when the index is beyond the end, then
overwrites (call sites in the patch engine only reach the in-range case). -/
def arrSet (elems : List JSONValue) (i : Nat) (v : JSONValue) : List JSONValue :=
  (elems ++ List.replicate (i + 1 - elems.length) JSONValue.null).set i v

/-- `JSONArray.Remove`: delete the index when in range, else unchanged. -/
def arrRemove (elems : List JSONValue) (i : Nat) : List JSONValue :=
  if i < elems.length then elems.eraseIdx i else elems

/- ### Error model (package `errors`) -/

/-- `errors.ErrorCode` constants. -/
inductive ErrorCode where
  | invalidJSON | emptyInput
  | invalidType | typeConversion
  | pathNotFound | invalidPath
  | indexOutOfRange | invalidIndex
  | operationFailed | notSupported
  | invalidPatch | patchFailed | testFailed
deriving DecidableEq, Repr

/-- `errors.JSONError` (the `Cause` chain is not modelled: no claim inspects
it). -/
structure JSONError where
  code : ErrorCode
  msg : String
  path : String := ""
deriving DecidableEq, Repr

/-- `errors.NewJSONError`. -/
def newJSONError (code : ErrorCode) (msg : String) : JSONError :=
  { code := code, msg := msg }

/-- `JSONError.WithPath`. -/
def JSONError.withPath (e : JSONError) (p : String) : JSONError :=
  { e with path := p }

/-- `errors.ErrInvalidTypeWithDetails`. -/
def errInvalidTypeWithDetails (expected actual : String) : JSONError :=
  newJSONError .invalidType ("类型错误: 期望 " ++ expected ++ ", 实际 " ++ actual)

/- ### JSON Path (package `jsonpath`) -/

/-- One parsed path segment (`pathSegment` implementations). -/
inductive Segment where
  | rootSeg : Segment
  | propSeg (name : String) : Segment
  | indexSeg (index : Int) : Segment
  | wildcardSeg : Segment
  | sliceSeg (start stop : Int) (hasStart hasStop : Bool) : Segment
deriving DecidableEq, Repr

/-- `isLetter` (jsonpath / diff packages). -/
def isLetterGo (c : Char) : Bool :=
  (c ≥ 'a' && c ≤ 'z') || (c ≥ 'A' && c ≤ 'Z')

/-- `isDigit` (jsonpath / diff packages). -/
def isDigitGo (c : Char) : Bool :=
  c ≥ '0' && c ≤ '9'

/-- `isValidIdentifier` (jsonpath / diff packages). -/
def isValidIdentifier (s : String) : Bool :=
  match s.data with
  | [] => false
  | c :: rest =>
    (isLetterGo c || c == '_') &&
      rest.all (fun d => isLetterGo d || isDigitGo d || d == '_')

/-- `strconv.Atoi`: optional sign, then one or more digits, nothing else. -/
def atoiChars (cs : List Char) : Option Int :=
  let digits (ds : List Char) : Option Nat :=
    if ds.isEmpty || !ds.all isDigitGo then none
    else some (ds.foldl (fun acc c => acc * 10 + (c.toNat - '0'.toNat)) 0)
  match cs with
  | '+' :: rest => (digits rest).map Int.ofNat
  | '-' :: rest => (digits rest).map (fun n => -(Int.ofNat n))
  | _ => (digits cs).map Int.ofNat

/-- Scan for the `]` matching the initial `[` (already consumed), counting
nesting depth as in `parseNextSegment`; returns the number of characters up
to and including the closing bracket. -/
def findCloseBracket : List Char → Nat → Option Nat
  | [], _ => none
  | c :: rest, depth =>
    if c == '[' then (findCloseBracket rest (depth + 1)).map (· + 1)
    else if c == ']' then
      if depth == 1 then some 1 else (findCloseBracket rest (depth - 1)).map (· + 1)
    else (findCloseBracket rest depth).map (· + 1)

/-- Property-name match of the regex `^\.([a-zA-Z_][a-zA-Z0-9_]*)` applied
after the leading dot: longest identifier run. -/
def takeIdentRun : List Char → List Char
  | [] => []
  | c :: rest =>
    if isLetterGo c || isDigitGo c || c == '_' then c :: takeIdentRun rest else []

/-- `parseNextSegment`: one segment and the number of characters consumed. -/
def parseNextSegment (cs : List Char) : Except JSONError (Segment × Nat) :=
  match cs with
  | '.' :: rest =>
    match rest with
    | [] => .error (newJSONError .invalidPath "属性名不能为空")
    | d :: _ =>
      if d == '*' then .ok (.wildcardSeg, 2)
      else if isLetterGo d || d == '_' then
        let name := takeIdentRun rest
        .ok (.propSeg (String.mk name), 1 + name.length)
      else .error (newJSONError .invalidPath "无效的属性名")
  | '[' :: rest =>
    match findCloseBracket rest 1 with
    | none => .error (newJSONError .invalidPath "括号不匹配")
    | some n =>
      let content := rest.take (n - 1)
      let consumed := 1 + n
      if content == ['*'] then .ok (.wildcardSeg, consumed)
      else
        match atoiChars content with
        | some i => .ok (.indexSeg i, consumed)
        | none =>
          if content.contains ':' then
            match splitOnCharList ':' content with
            | [a, b] =>
              let hasStart := !a.isEmpty
              let hasStop := !b.isEmpty
              let start := if hasStart then (atoiChars a).getD 0 else 0
              let stop := if hasStop then (atoiChars b).getD 0 else 0
              .ok (.sliceSeg start stop hasStart hasStop, consumed)
            | _ => bracketPropertyOrError content consumed
          else bracketPropertyOrError content consumed
  | _ => .error (newJSONError .invalidPath "无效的路径段")
where
  /-- `strings.Split` on one separator character. -/
  splitOnCharList (sep : Char) : List Char → List (List Char)
    | [] => [[]]
    | c :: rest =>
      match splitOnCharList sep rest with
      | [] => [[]]
      | g :: gs => if c == sep then [] :: g :: gs else (c :: g) :: gs
  /-- Quoted `['property']` / `["property"]` forms, else the invalid-bracket
  error. -/
  bracketPropertyOrError (content : List Char) (consumed : Nat) :
      Except JSONError (Segment × Nat) :=
    if content.length ≥ 2 &&
        ((content.head? == some '\'' && content.getLast? == some '\'') ||
         (content.head? == some '"' && content.getLast? == some '"')) then
      .ok (.propSeg (String.mk ((content.drop 1).take (content.length - 2))), consumed)
    else .error (newJSONError .invalidPath "无效的括号表达式")

/-- `strings.Split` on one separator character, on `String`. -/
def splitOnChar (sep : Char) : List Char → List (List Char)
  | [] => [[]]
  | c :: rest =>
    match splitOnChar sep rest with
    | [] => [[]]
    | g :: gs => if c == sep then [] :: g :: gs else (c :: g) :: gs

/-- Segment-parsing loop of `ParseJSONPath`; each step consumes at least one
character, so `fuel := length + 1` never runs out. -/
def parseSegmentsF (fuel : Nat) (cs : List Char) : Except JSONError (List Segment) :=
  match fuel with
  | 0 => .error (newJSONError .invalidPath "无效的路径段")
  | fuel + 1 =>
    match cs with
    | [] => .ok []
    | _ =>
      match parseNextSegment cs with
      | .error e => .error e
      | .ok (seg, consumed) =>
        match parseSegmentsF fuel (cs.drop consumed) with
        | .error e => .error e
        | .ok segs => .ok (seg :: segs)

/-- `jsonpath.ParseJSONPath`. -/
def parseJSONPath (path : String) : Except JSONError (List Segment) :=
  if path == "" then .error (newJSONError .invalidPath "JSON Path不能为空")
  else
    match path.data with
    | '$' :: rest =>
      match parseSegmentsF (rest.length + 1) rest with
      | .error e => .error e
      | .ok segs => .ok (.rootSeg :: segs)
    | _ => .error (newJSONError .invalidPath "JSON Path必须以$开头")

/-- One step of a concrete location inside a value tree.  A Go pointer into
the tree is rendered as the location (list of steps) it occupies. -/
inductive Step where
  | key (k : String) : Step
  | idx (i : Nat) : Step
deriving DecidableEq, Repr

/-- Value found at a location (total: an invalid step yields `null`, which
call sites never reach because locations come from queries). -/
def getAtLoc (v : JSONValue) : List Step → JSONValue
  | [] => v
  | .key k :: rest =>
    match v with
    | .obj props => getAtLoc (objGet props k) rest
    | _ => .null
  | .idx i :: rest =>
    match v with
    | .arr elems => getAtLoc (arrGet elems i) rest
    | _ => .null

/-- Functional write-back at a location: the pure counterpart of mutating in
place through a pointer returned by a query (the working tree of the patch
engine is internally unshared, so this computes exactly the tree the Go code
leaves behind).  An invalid location leaves the tree unchanged (call sites
never reach that case). -/
def setAtLoc (v : JSONValue) (loc : List Step) (sub : JSONValue) : JSONValue :=
  match loc with
  | [] => sub
  | .key k :: rest =>
    match v with
    | .obj props =>
      .obj (props.map (fun p => if p.1 == k then (k, setAtLoc p.2 rest sub) else p))
    | _ => v
  | .idx i :: rest =>
    match v with
    | .arr elems =>
      .arr (elems.enum.map (fun p => if p.1 == i then setAtLoc p.2 rest sub else p.2))
    | _ => v

/-- `pathSegment.apply`, rendered on locations: given the location `loc` of
the current value, return the locations of the matched values (the Go method
returns the pointers themselves). -/
def segmentApply (root : JSONValue) (seg : Segment) (loc : List Step) :
    Except JSONError (List (List Step)) :=
  let v := getAtLoc root loc
  match seg with
  | .rootSeg => .ok [loc]
  | .propSeg name =>
    if !v.isObject then
      .error (errInvalidTypeWithDetails "object" v.typeName)
    else
      match v with
      | .obj props =>
        if (objGet props name).isNull && !objHas props name then .ok []
        else .ok [loc ++ [.key name]]
      | _ => .ok []
  | .indexSeg i =>
    if !v.isArray then
      .error (errInvalidTypeWithDetails "array" v.typeName)
    else
      match v with
      | .arr elems =>
        if i < 0 || i ≥ (elems.length : Int) then .ok []
        else .ok [loc ++ [.idx i.toNat]]
      | _ => .ok []
  | .wildcardSeg =>
    match v with
    | .obj props => .ok ((objKeys props).map (fun k => loc ++ [.key k]))
    | .arr elems => .ok ((List.range elems.length).map (fun i => loc ++ [.idx i]))
    | _ => .error (errInvalidTypeWithDetails "object or array" v.typeName)
  | .sliceSeg start stop hasStart hasStop =>
    match v with
    | .arr elems =>
      let size : Int := elems.length
      let start := if hasStart then start else 0
      let stop := if hasStop then stop else size
      let start := if start < 0 then size + start else start
      let stop := if stop < 0 then size + stop else stop
      let start := if start < 0 then 0 else start
      let stop := if stop > size then size else stop
      if start ≥ size || start ≥ stop then .ok []
      else .ok (((List.range (stop - start).toNat).map
        (fun i => loc ++ [.idx (start.toNat + i)])))
    | _ => .error (errInvalidTypeWithDetails "array" v.typeName)

/-- `JSONPath.Query`, on locations: fold the segments over the current list
of matches, stopping early when it empties. -/
def queryLocs (root : JSONValue) : List Segment → List (List Step) →
    Except JSONError (List (List Step))
  | [], current => .ok current
  | seg :: rest, current =>
    if current.isEmpty then .ok current
    else
      match collect seg current with
      | .error e => .error e
      | .ok next => queryLocs root rest next
where
  collect (seg : Segment) : List (List Step) → Except JSONError (List (List Step))
    | [] => .ok []
    | loc :: locs =>
      match segmentApply root seg loc with
      | .error e => .error e
      | .ok results =>
        match collect seg locs with
        | .error e => .error e
        | .ok more => .ok (results ++ more)

/-- Parse a path expression and return the matched locations. -/
def queryPathLocs (root : JSONValue) (pathExpr : String) :
    Except JSONError (List (List Step)) :=
  match parseJSONPath pathExpr with
  | .error e => .error e
  | .ok segs => queryLocs root segs [[]]

/-- `jsonpath.QueryJSONPath`: the matched values. -/
def queryJSONPath (root : JSONValue) (pathExpr : String) :
    Except JSONError (List JSONValue) :=
  match queryPathLocs root pathExpr with
  | .error e => .error e
  | .ok locs => .ok (locs.map (getAtLoc root))

/- ### Patch engine (package `patch`) -/

/-- `patch.PatchOperation`.  The `Value json.RawMessage` field is modelled as
the parsed JSON document it holds (`none` = absent/empty raw message; raw
messages holding invalid JSON are not modelled — every failure path they
trigger is the same `InvalidPatch` error produced for an absent value). -/
structure PatchOperation where
  op : String
  path : String
  value : Option JSONValue := none
  fromPath : String := ""

/-- Failure of a patch operation: a typed `JSONError`, or a Go runtime panic
(`splitPath` slices `path[1:]` on an empty path). -/
inductive PatchFail where
  | jsonErr (e : JSONError)
  | runtimePanic (msg : String)
deriving DecidableEq, Repr

/-- `parser.ParseBytesToValue` applied to an operation's raw `value` field. -/
def parseBytesToValue (raw : Option JSONValue) : Except JSONError JSONValue :=
  match raw with
  | none => .error (newJSONError .emptyInput "输入的JSON字节数组为空")
  | some v => .ok v

/-- `strings.ReplaceAll` for a two-character pattern replaced by one
character (the `~1` → `/` and `~0` → `~` unescapes). -/
def replacePair (p1 p2 r : Char) : List Char → List Char
  | [] => []
  | [c] => [c]
  | c1 :: c2 :: rest =>
    if c1 == p1 && c2 == p2 then r :: replacePair p1 p2 r rest
    else c1 :: replacePair p1 p2 r (c2 :: rest)

/-- `isArrayIndex` (patch package): `"0"`, or digits not starting with 0. -/
def isArrayIndex (s : String) : Bool :=
  if s == "0" then true
  else
    match s.data with
    | [] => false
    | c :: _ => if c != '0' then s.data.all isDigitGo else false

/-- `normalizePath`: JSON Patch pointer → JSON Path expression
(`/foo/0` → `$.foo[0]`), with `~1`/`~0` unescaping per segment. -/
def normalizePath (path : String) : String :=
  if path == "" then ""
  else
    let parts := splitOnChar '/' path.data
    let parts :=
      match parts with
      | [] :: rest => rest
      | ps => ps
    parts.foldl
      (fun result part =>
        let part := replacePair '~' '0' '~' (replacePair '~' '1' '/' part)
        let partStr := String.mk part
        if isArrayIndex partStr then result ++ "[" ++ partStr ++ "]"
        else result ++ "." ++ partStr)
      "$"

/-- `strings.LastIndex` for a single character. -/
def lastIndexOfChar (c : Char) (cs : List Char) : Option Nat :=
  match cs.reverse.findIdx? (· == c) with
  | some i => some (cs.length - 1 - i)
  | none => none

/-- `splitPath`: parent path and final segment.  `none` models the Go
runtime panic of `path[1:]` when the path is empty. -/
def splitPath (path : String) : Option (String × String) :=
  let cs := path.data
  let dotSplit : Option (String × String) :=
    match lastIndexOfChar '.' cs with
    | some i => some (String.mk (cs.take i), String.mk (cs.drop (i + 1)))
    | none => if cs.isEmpty then none else some ("$", String.mk (cs.drop 1))
  if cs.getLast? == some ']' then
    match lastIndexOfChar '[' cs with
    | some i =>
      some (String.mk (cs.take i),
        String.mk ((cs.drop (i + 1)).take (cs.length - 1 - (i + 1))))
    | none => dotSplit
  else dotSplit

/-- Leading digit run converted to a number, `none` when there is none. -/
def takeDigitsVal (cs : List Char) : Option Nat :=
  let ds := cs.takeWhile isDigitGo
  if ds.isEmpty then none
  else some (ds.foldl (fun acc c => acc * 10 + (c.toNat - '0'.toNat)) 0)

/-- `fmt.Sscanf(s, "%d", &index)`: optional leading spaces and sign, then at
least one digit; trailing input is ignored. -/
def sscanfInt (s : String) : Option Int :=
  let cs := s.data.dropWhile (fun c => c == ' ' || c == '\t' || c == '\n')
  match cs with
  | '-' :: rest => (takeDigitsVal rest).map (fun n => -(Int.ofNat n))
  | '+' :: rest => (takeDigitsVal rest).map Int.ofNat
  | _ => (takeDigitsVal cs).map Int.ofNat

/-- `parseArrayIndex`: `-` means the current size (append position); numeric
parse via `Sscanf`; negative or unparsable → `InvalidIndex`. -/
def parseArrayIndex (indexStr : String) (arraySize : Nat) : Except JSONError Int :=
  if indexStr == "-" then .ok arraySize
  else
    match sscanfInt indexStr with
    | none => .error (newJSONError .invalidIndex "无效的数组索引")
    | some i =>
      if i < 0 then .error (newJSONError .invalidIndex "无效的数组索引")
      else .ok i

/-- Ascending lexicographic comparison on the characters of two strings
(the order used by `sort.Strings`; UTF-8 byte order and code-point order
agree). -/
def charsLe : List Char → List Char → Bool
  | [], _ => true
  | _ :: _, [] => false
  | a :: as, b :: bs => if a < b then true else if b < a then false else charsLe as bs

/-- Insert into an ascending list. -/
def insertStr (s : String) : List String → List String
  | [] => [s]
  | t :: rest => if charsLe s.data t.data then s :: t :: rest else t :: insertStr s rest

/-- Ascending sort on strings (`sort.Strings`). -/
def sortStrings : List String → List String
  | [] => []
  | s :: rest => insertStr s (sortStrings rest)

/-- Comma-separated join. -/
def joinComma : List String → String
  | [] => ""
  | [s] => s
  | s :: rest => s ++ "," ++ joinComma rest

/-- Rendering of a value by the `String()` methods / `fmt`'s `%v` (objects
marshal through a Go map, so keys come out sorted); string escaping is not
modelled (no claim depends on message contents). -/
def renderF : Nat → JSONValue → String
  | 0, _ => ""
  | _ + 1, .null => "null"
  | _ + 1, .bool b => if b then "true" else "false"
  | _ + 1, .num n => toString n
  | _ + 1, .str s => "\"" ++ s ++ "\""
  | fuel + 1, .arr elems => "[" ++ joinComma (elems.map (renderF fuel)) ++ "]"
  | fuel + 1, .obj props =>
    "\x7b" ++
      joinComma ((sortStrings (objKeys props)).map
        (fun k => "\"" ++ k ++ "\":" ++ renderF fuel (objGet props k))) ++
      "\x7d"

/-- Wrapper for `renderF` with sufficient fuel. -/
def render (v : JSONValue) : String := renderF v.size v

/-- `errors.ErrTestFailedWithDetails`. -/
def errTestFailedWithDetails (path : String) (expected actual : JSONValue) : JSONError :=
  (newJSONError .testFailed
    ("测试失败: 期望 " ++ render expected ++ ", 实际 " ++ render actual)).withPath path

/-- The `json.Marshal(types.ValueToInterface(v))` / `ParseBytesToValue`
round trip used by `move`/`copy` to deep-copy a subtree: objects pass
through a Go map, which marshals its keys in sorted order, recursively. -/
def sortTreeF : Nat → JSONValue → JSONValue
  | 0, v => v
  | fuel + 1, .arr elems => .arr (elems.map (sortTreeF fuel))
  | fuel + 1, .obj props =>
    .obj ((sortStrings (objKeys props)).map (fun k => (k, sortTreeF fuel (objGet props k))))
  | _ + 1, v => v

/-- Wrapper for `sortTreeF` with sufficient fuel. -/
def marshalRoundtrip (v : JSONValue) : JSONValue := sortTreeF v.size v

/-- `compareValues` (patch package), with explicit fuel. -/
def compareValuesF : Nat → JSONValue → JSONValue → Bool
  | 0, _, _ => false
  | fuel + 1, a, b =>
    if a.typeName != b.typeName then false
    else
      match a, b with
      | .null, .null => true
      | .bool x, .bool y => x == y
      | .num x, .num y => x == y
      | .str x, .str y => x == y
      | .arr xs, .arr ys =>
        xs.length == ys.length &&
          (List.range xs.length).all (fun i => compareValuesF fuel (arrGet xs i) (arrGet ys i))
      | .obj xs, .obj ys =>
        xs.length == ys.length &&
          (objKeys xs).all (fun k => objHas ys k && compareValuesF fuel (objGet xs k) (objGet ys k))
      | _, _ => false

/-- `compareValues`: structural equality, order-insensitive for object keys. -/
def compareValues (a b : JSONValue) : Bool := compareValuesF a.size a b

/-- `applyAddOperation`.  The query result is a pointer into the working
tree; the in-place mutation through it is rendered as `setAtLoc` at the
location the query resolved. -/
def applyAddOperation (value : JSONValue) (path : String) (rawValue : Option JSONValue) :
    Except PatchFail JSONValue :=
  match parseBytesToValue rawValue with
  | .error _ => .error (.jsonErr (newJSONError .invalidPatch "无效的值"))
  | .ok newValue =>
    if path == "$" then .ok newValue
    else
      match splitPath path with
      | none => .error (.runtimePanic "slice bounds out of range")
      | some (parentPath, lastSegment) =>
        match queryPathLocs value parentPath with
        | .error _ =>
          .error (.jsonErr ((newJSONError .pathNotFound "父路径不存在").withPath parentPath))
        | .ok [] =>
          .error (.jsonErr ((newJSONError .pathNotFound "父路径不存在").withPath parentPath))
        | .ok (loc :: _) =>
          match getAtLoc value loc with
          | .obj props =>
            .ok (setAtLoc value loc (.obj (objPut props lastSegment newValue)))
          | .arr elems =>
            match parseArrayIndex lastSegment elems.length with
            | .error e => .error (.jsonErr e)
            | .ok index =>
              if index == (elems.length : Int) then
                .ok (setAtLoc value loc (.arr (elems ++ [newValue])))
              else
                let newElems := (List.range (elems.length + 1)).map (fun (i : Nat) =>
                  if (i : Int) < index then arrGet elems i
                  else if (i : Int) == index then newValue
                  else arrGet elems (i - 1))
                .ok (setAtLoc value loc (.arr newElems))
          | _ =>
            .error (.jsonErr ((newJSONError .invalidType "父路径必须是对象或数组").withPath parentPath))

/-- `applyRemoveOperation`. -/
def applyRemoveOperation (value : JSONValue) (path : String) :
    Except PatchFail JSONValue :=
  if path == "$" then .ok .null
  else
    match splitPath path with
    | none => .error (.runtimePanic "slice bounds out of range")
    | some (parentPath, lastSegment) =>
      match queryPathLocs value parentPath with
      | .error _ =>
        .error (.jsonErr ((newJSONError .pathNotFound "父路径不存在").withPath parentPath))
      | .ok [] =>
        .error (.jsonErr ((newJSONError .pathNotFound "父路径不存在").withPath parentPath))
      | .ok (loc :: _) =>
        match getAtLoc value loc with
        | .obj props =>
          if !objHas props lastSegment then
            .error (.jsonErr ((newJSONError .pathNotFound "路径不存在").withPath path))
          else .ok (setAtLoc value loc (.obj (objRemove props lastSegment)))
        | .arr elems =>
          match parseArrayIndex lastSegment elems.length with
          | .error e => .error (.jsonErr e)
          | .ok index =>
            if index ≥ (elems.length : Int) then
              .error (.jsonErr ((newJSONError .indexOutOfRange "索引超出范围").withPath path))
            else .ok (setAtLoc value loc (.arr (arrRemove elems index.toNat)))
        | _ =>
          .error (.jsonErr ((newJSONError .invalidType "父路径必须是对象或数组").withPath parentPath))

/-- `applyReplaceOperation`. -/
def applyReplaceOperation (value : JSONValue) (path : String) (rawValue : Option JSONValue) :
    Except PatchFail JSONValue :=
  match parseBytesToValue rawValue with
  | .error _ => .error (.jsonErr (newJSONError .invalidPatch "无效的值"))
  | .ok newValue =>
    if path == "$" then .ok newValue
    else
      match splitPath path with
      | none => .error (.runtimePanic "slice bounds out of range")
      | some (parentPath, lastSegment) =>
        match queryPathLocs value parentPath with
        | .error _ =>
          .error (.jsonErr ((newJSONError .pathNotFound "父路径不存在").withPath parentPath))
        | .ok [] =>
          .error (.jsonErr ((newJSONError .pathNotFound "父路径不存在").withPath parentPath))
        | .ok (loc :: _) =>
          match getAtLoc value loc with
          | .obj props =>
            if !objHas props lastSegment then
              .error (.jsonErr ((newJSONError .pathNotFound "路径不存在").withPath path))
            else .ok (setAtLoc value loc (.obj (objPut props lastSegment newValue)))
          | .arr elems =>
            match parseArrayIndex lastSegment elems.length with
            | .error e => .error (.jsonErr e)
            | .ok index =>
              if index ≥ (elems.length : Int) then
                .error (.jsonErr ((newJSONError .indexOutOfRange "索引超出范围").withPath path))
              else .ok (setAtLoc value loc (.arr (arrSet elems index.toNat newValue)))
          | _ =>
            .error (.jsonErr ((newJSONError .invalidType "父路径必须是对象或数组").withPath parentPath))

/-- `applyMoveOperation`: read the source, remove it, add the marshalled
copy at the target. -/
def applyMoveOperation (value : JSONValue) (fromPath path : String) :
    Except PatchFail JSONValue :=
  match queryJSONPath value fromPath with
  | .error _ =>
    .error (.jsonErr ((newJSONError .pathNotFound "源路径不存在").withPath fromPath))
  | .ok [] =>
    .error (.jsonErr ((newJSONError .pathNotFound "源路径不存在").withPath fromPath))
  | .ok (sourceValue :: _) =>
    match applyRemoveOperation value fromPath with
    | .error e => .error e
    | .ok v2 => applyAddOperation v2 path (some (marshalRoundtrip sourceValue))

/-- `applyCopyOperation`. -/
def applyCopyOperation (value : JSONValue) (fromPath path : String) :
    Except PatchFail JSONValue :=
  match queryJSONPath value fromPath with
  | .error _ =>
    .error (.jsonErr ((newJSONError .pathNotFound "源路径不存在").withPath fromPath))
  | .ok [] =>
    .error (.jsonErr ((newJSONError .pathNotFound "源路径不存在").withPath fromPath))
  | .ok (sourceValue :: _) =>
    applyAddOperation value path (some (marshalRoundtrip sourceValue))

/-- `applyTestOperation`: reads only, never mutates. -/
def applyTestOperation (value : JSONValue) (path : String) (rawValue : Option JSONValue) :
    Except PatchFail JSONValue :=
  match parseBytesToValue rawValue with
  | .error _ => .error (.jsonErr (newJSONError .invalidPatch "无效的值"))
  | .ok testValue =>
    match queryJSONPath value path with
    | .error _ =>
      .error (.jsonErr ((newJSONError .pathNotFound "路径不存在").withPath path))
    | .ok [] =>
      .error (.jsonErr ((newJSONError .pathNotFound "路径不存在").withPath path))
    | .ok (targetValue :: _) =>
      if !compareValues targetValue testValue then
        .error (.jsonErr (errTestFailedWithDetails path testValue targetValue))
      else .ok value

/-- `applyOperation`: normalize the two pointer strings and dispatch on the
operation name; unknown names are `InvalidPatch`. -/
def applyOperation (value : JSONValue) (op : PatchOperation) :
    Except PatchFail JSONValue :=
  let path := normalizePath op.path
  let fromP := normalizePath op.fromPath
  if op.op == "add" then applyAddOperation value path op.value
  else if op.op == "remove" then applyRemoveOperation value path
  else if op.op == "replace" then applyReplaceOperation value path op.value
  else if op.op == "move" then applyMoveOperation value fromP path
  else if op.op == "copy" then applyCopyOperation value fromP path
  else if op.op == "test" then applyTestOperation value path op.value
  else .error (.jsonErr (newJSONError .invalidPatch ("未知的操作类型: " ++ op.op)))

/-- The clone block at the top of `ApplyPatch`: a fresh top-level container
holding the same children (`JSONObject.Clone` re-`Put`s the child pointers;
the array branch re-`Add`s the element pointers).  As a value it is the
input; the sharing it creates is analysed in the heap model below. -/
def cloneRoot (value : JSONValue) : JSONValue :=
  match value with
  | .obj props => .obj props
  | .arr elems => .arr elems
  | v => v

/-- The operation loop of `ApplyPatch`: strict list order, first failure
aborts. -/
def applyOps : JSONValue → List PatchOperation → Except PatchFail JSONValue
  | v, [] => .ok v
  | v, op :: rest =>
    match applyOperation v op with
    | .error e => .error e
    | .ok v2 => applyOps v2 rest

/-- `patch.ApplyPatch`, after the wire-level `json.Unmarshal` of the patch
document into `[]PatchOperation` (the operation list is taken already
decoded). -/
def ApplyPatch (value : JSONValue) (patchOps : List PatchOperation) :
    Except PatchFail JSONValue :=
  applyOps (cloneRoot value) patchOps

/- ### Diff engine (package `diff`) -/

/-- `diff.DiffType`. -/
inductive DiffType where
  | added | removed | modified | same | moved | typeChanged
deriving DecidableEq, Repr

/-- `diff.Diff` (the `Type` field is named `dtype`). -/
structure Diff where
  dtype : DiffType
  path : String
  oldValue : JSONValue
  newValue : JSONValue

/-- `diff.DiffOptions`. -/
structure DiffOptions where
  ignoreCase : Bool
  ignoreWhitespace : Bool
  ignoreOrder : Bool
  includeSame : Bool
  maxDepth : Int

/-- `diff.DefaultDiffOptions`. -/
def defaultDiffOptions : DiffOptions :=
  { ignoreCase := false, ignoreWhitespace := false, ignoreOrder := false,
    includeSame := false, maxDepth := 0 }

/-- `strings.ToLower` (ASCII case folding; no claim depends on non-ASCII
folding). -/
def strToLowerGo (s : String) : String := String.mk (s.data.map Char.toLower)

/-- `removeWhitespace`: the regex `\s+` replaced by the empty string, i.e.
every whitespace character removed (`\s` = `[\t\n\f\r ]`). -/
def removeWhitespace (s : String) : String :=
  String.mk (s.data.filter
    (fun c => !(c == ' ' || c == '\t' || c == '\n' || c == '\x0c' || c == '\r')))

/-- The seen-set deduplication loop of `mergeKeys` (first occurrence kept). -/
def dedupSeen (seen : List String) : List String → List String
  | [] => []
  | k :: rest =>
    if seen.contains k then dedupSeen seen rest
    else k :: dedupSeen (k :: seen) rest

/-- `diff.mergeKeys`: union of the two key lists, deduplicated, then sorted
ascending (`sort.Strings`). -/
def mergeKeys (a b : List String) : List String :=
  sortStrings (dedupSeen [] (a ++ b))

/-- `diffBooleans`. -/
def diffBooleans (path : String) (oldValue newValue : JSONValue) (options : DiffOptions) :
    List Diff :=
  if oldValue.getBool == newValue.getBool then
    if options.includeSame then [⟨.same, path, oldValue, newValue⟩] else []
  else [⟨.modified, path, oldValue, newValue⟩]

/-- `diffNumbers`. -/
def diffNumbers (path : String) (oldValue newValue : JSONValue) (options : DiffOptions) :
    List Diff :=
  if oldValue.getNum == newValue.getNum then
    if options.includeSame then [⟨.same, path, oldValue, newValue⟩] else []
  else [⟨.modified, path, oldValue, newValue⟩]

/-- `diffStrings`: `IgnoreCase` lowercases, `IgnoreWhitespace` strips
whitespace, then plain equality. -/
def diffStrings (path : String) (oldValue newValue : JSONValue) (options : DiffOptions) :
    List Diff :=
  let oldStr := oldValue.getStr
  let newStr := newValue.getStr
  let oldStr := if options.ignoreCase then strToLowerGo oldStr else oldStr
  let newStr := if options.ignoreCase then strToLowerGo newStr else newStr
  let oldStr := if options.ignoreWhitespace then removeWhitespace oldStr else oldStr
  let newStr := if options.ignoreWhitespace then removeWhitespace newStr else newStr
  if oldStr == newStr then
    if options.includeSame then [⟨.same, path, oldValue, newValue⟩] else []
  else [⟨.modified, path, oldValue, newValue⟩]

/-- `diffArraysInOrder`, parameterised by the recursive comparison (the Go
function calls back into `diffValues`). -/
def diffArraysInOrder (rec : String → JSONValue → JSONValue → Int → List Diff)
    (path : String) (oldArr newArr : List JSONValue) (depth : Int) : List Diff :=
  let maxLen := if newArr.length > oldArr.length then newArr.length else oldArr.length
  (List.range maxLen).flatMap (fun i =>
    let itemPath := path ++ "[" ++ toString i ++ "]"
    if i ≥ oldArr.length then [⟨.added, itemPath, .null, arrGet newArr i⟩]
    else if i ≥ newArr.length then [⟨.removed, itemPath, arrGet oldArr i, .null⟩]
    else rec itemPath (arrGet oldArr i) (arrGet newArr i) (depth + 1))

/-- `diffArraysAsSet`: the source leaves the set comparison as a TODO and
falls back to the in-order comparison. -/
def diffArraysAsSet (rec : String → JSONValue → JSONValue → Int → List Diff)
    (path : String) (oldArr newArr : List JSONValue) (depth : Int) : List Diff :=
  diffArraysInOrder rec path oldArr newArr depth

/-- Property path of a key under `path` (from `diffObjects`): `$.key` at the
root, `path.key` for identifier keys, bracket-quoted otherwise. -/
def propPathOf (path key : String) : String :=
  if path == "$" then "$." ++ key
  else if isValidIdentifier key then path ++ "." ++ key
  else path ++ "[" ++ String.mk ['\''] ++ key ++ String.mk ['\''] ++ "]"

/-- `diffObjects`, parameterised by the recursive comparison. -/
def diffObjects (rec : String → JSONValue → JSONValue → Int → List Diff)
    (path : String) (oldProps newProps : List (String × JSONValue)) (depth : Int) :
    List Diff :=
  let allKeys := mergeKeys (objKeys oldProps) (objKeys newProps)
  allKeys.flatMap (fun key =>
    let propPath := propPathOf path key
    let oldHas := objHas oldProps key
    let newHas := objHas newProps key
    if oldHas && newHas then
      rec propPath (objGet oldProps key) (objGet newProps key) (depth + 1)
    else if oldHas then [⟨.removed, propPath, objGet oldProps key, .null⟩]
    else [⟨.added, propPath, .null, objGet newProps key⟩])

/-- The `switch oldValue.Type()` dispatch of `diffValues`, parameterised by
the recursive comparison (called only after the null and type-equality
checks; a type pair no case handles produces nothing, like the Go switch
without a default). -/
def diffByType (rec : String → JSONValue → JSONValue → Int → List Diff)
    (path : String) (oldValue newValue : JSONValue) (options : DiffOptions)
    (depth : Int) : List Diff :=
  match oldValue, newValue with
  | .bool _, .bool _ => diffBooleans path oldValue newValue options
  | .num _, .num _ => diffNumbers path oldValue newValue options
  | .str _, .str _ => diffStrings path oldValue newValue options
  | .arr oldElems, .arr newElems =>
    if options.ignoreOrder then diffArraysAsSet rec path oldElems newElems depth
    else diffArraysInOrder rec path oldElems newElems depth
  | .obj oldProps, .obj newProps => diffObjects rec path oldProps newProps depth
  | _, _ => []

/-- `diffValues`, with explicit fuel (the Go recursion terminates on tree
size; `DiffJSON` passes a dominating bound). -/
def diffValuesF : Nat → String → JSONValue → JSONValue → DiffOptions → Int → List Diff
  | 0, _, _, _, _, _ => []
  | fuel + 1, path, oldValue, newValue, options, depth =>
    if options.maxDepth > 0 && depth > options.maxDepth then []
    else if oldValue.isNull && newValue.isNull then
      if options.includeSame then [⟨.same, path, oldValue, newValue⟩] else []
    else if oldValue.isNull then [⟨.added, path, oldValue, newValue⟩]
    else if newValue.isNull then [⟨.removed, path, oldValue, newValue⟩]
    else if oldValue.typeName != newValue.typeName then
      [⟨.typeChanged, path, oldValue, newValue⟩]
    else
      diffByType (fun p o n d => diffValuesF fuel p o n options d)
        path oldValue newValue options depth

/-- `diff.DiffJSON` (its `error` return is always nil; `nil` options mean the
defaults). -/
def DiffJSON (oldValue newValue : JSONValue) (options : Option DiffOptions) : List Diff :=
  diffValuesF (oldValue.size + newValue.size) "$" oldValue newValue
    (options.getD defaultDiffOptions) 0

/-- `jsonPathToPatchPath`: strip `$`, turn `.` and `[` into `/`, drop `]`,
then apply the `~0`/`~1` escapes (note: the escape pass runs over the whole
string, separators included). -/
def jsonPathToPatchPath (path : String) : String :=
  if path == "$" then ""
  else
    let cs := path.data.drop 1
    let cs := cs.map (fun c => if c == '.' then '/' else c)
    let cs := cs.map (fun c => if c == '[' then '/' else c)
    let cs := cs.filter (fun c => c != ']')
    let cs := cs.flatMap (fun c => if c == '~' then ['~', '0'] else [c])
    let cs := cs.flatMap (fun c => if c == '/' then ['~', '1'] else [c])
    "/" ++ String.mk cs

/-- `diff.GeneratePatch`: the patch document (a JSON array of operation
objects); `Added` → add, `Removed` → remove, `Modified` → replace, all other
record kinds skipped. -/
def GeneratePatch (diffs : List Diff) : JSONValue :=
  .arr (diffs.flatMap (fun d =>
    match d.dtype with
    | .added =>
      [.obj [("op", .str "add"), ("path", .str (jsonPathToPatchPath d.path)),
             ("value", d.newValue)]]
    | .removed =>
      [.obj [("op", .str "remove"), ("path", .str (jsonPathToPatchPath d.path))]]
    | .modified =>
      [.obj [("op", .str "replace"), ("path", .str (jsonPathToPatchPath d.path)),
             ("value", d.newValue)]]
    | _ => []))

/-- String field of an operation object under `json.Unmarshal`: absent key
or JSON null leave the zero value `""`; a non-string value is a decode
error (`none`). -/
def strField (props : List (String × JSONValue)) (k : String) : Option String :=
  if objHas props k then
    match objGet props k with
    | .str s => some s
    | .null => some ""
    | _ => none
  else some ""

/-- Wire bridge: `json.Unmarshal(patchDoc.String(), &[]PatchOperation)` — the
decoding of a patch document (as produced by `GeneratePatch`) into the
operation list consumed by `ApplyPatch`.  A present `value` field is kept as
raw JSON and later re-parsed; serialising it through a Go map sorts object
keys, hence `marshalRoundtrip`. -/
def patchDocToOps : JSONValue → Option (List PatchOperation)
  | .arr elems =>
    elems.mapM (fun e =>
      match e with
      | .obj props =>
        match strField props "op", strField props "path", strField props "from" with
        | some op, some path, some fromP =>
          some { op := op, path := path, fromPath := fromP,
                 value :=
                   if objHas props "value" then some (marshalRoundtrip (objGet props "value"))
                   else none }
        | _, _, _ => none
      | _ => none)
  | _ => none

/- ### Heap model of the patch engine

The value-level model above computes the tree `ApplyPatch` returns.  To
reason about what happens to the *caller's original* tree, Go's pointer
structure is made explicit: a heap is a store of nodes addressed by index,
container nodes hold the addresses of their children, and the in-place
mutations of the patch engine are writes to a single address.  The clone
block of `ApplyPatch` allocates a fresh root node holding the *same child
addresses* (`JSONObject.Clone` re-`Put`s the child pointers; the array
branch re-`Add`s the element pointers), which is exactly the sharing the
heap model is needed to express. -/

/-- Heap node: like `JSONValue`, with children replaced by addresses. -/
inductive HNode where
  | hnull : HNode
  | hbool (b : Bool) : HNode
  | hnum (n : Int) : HNode
  | hstr (s : String) : HNode
  | harr (elems : List Nat) : HNode
  | hobj (props : List (String × Nat)) : HNode
deriving DecidableEq, Repr

/-- A heap: node at address `a` is the list entry at index `a`; allocation
appends. -/
abbrev Heap := List HNode

/-- Dereference (out-of-range addresses never arise on the wrapped calls). -/
def hget (h : Heap) (a : Nat) : HNode := h.getD a .hnull

/-- In-place mutation of the node at `a`. -/
def hset (h : Heap) (a : Nat) (n : HNode) : Heap := h.set a n

/-- Allocation of one node. -/
def halloc (h : Heap) (n : HNode) : Heap × Nat := (h ++ [n], h.length)

mutual

/-- Allocate a whole value tree, returning the root address. -/
def allocTree (h : Heap) : JSONValue → Heap × Nat
  | .null => halloc h .hnull
  | .bool b => halloc h (.hbool b)
  | .num n => halloc h (.hnum n)
  | .str s => halloc h (.hstr s)
  | .arr elems =>
    let p := allocTreeList h elems
    halloc p.1 (.harr p.2)
  | .obj props =>
    let p := allocTreeProps h props
    halloc p.1 (.hobj p.2)

def allocTreeList (h : Heap) : List JSONValue → Heap × List Nat
  | [] => (h, [])
  | v :: rest =>
    let p := allocTree h v
    let q := allocTreeList p.1 rest
    (q.1, p.2 :: q.2)

def allocTreeProps (h : Heap) : List (String × JSONValue) → Heap × List (String × Nat)
  | [] => (h, [])
  | (k, v) :: rest =>
    let p := allocTree h v
    let q := allocTreeProps p.1 rest
    (q.1, (k, p.2) :: q.2)

end

/-- Read the value tree rooted at an address (fuel bounds the depth; any
fuel beyond the heap length is enough for the acyclic heaps built here). -/
def readTreeF : Nat → Heap → Nat → JSONValue
  | 0, _, _ => .null
  | fuel + 1, h, a =>
    match hget h a with
    | .hnull => .null
    | .hbool b => .bool b
    | .hnum n => .num n
    | .hstr s => .str s
    | .harr elems => .arr (elems.map (readTreeF fuel h))
    | .hobj props => .obj (props.map (fun p => (p.1, readTreeF fuel h p.2)))

/-- Read with the always-sufficient fuel `heap length + 1`. -/
def readTree (h : Heap) (a : Nat) : JSONValue := readTreeF (h.length + 1) h a

/-- `Type()` of a heap node. -/
def HNode.typeName : HNode → String
  | .hnull => "null"
  | .hbool _ => "boolean"
  | .hnum _ => "number"
  | .hstr _ => "string"
  | .harr _ => "array"
  | .hobj _ => "object"

/-- `JSONObject.Has`/`Get` on a heap object node. -/
def hobjFind (props : List (String × Nat)) (key : String) : Option Nat :=
  (props.find? (fun p => p.1 == key)).map Prod.snd

/-- `JSONObject.Put` on a heap object node. -/
def hobjPut (props : List (String × Nat)) (key : String) (a : Nat) :
    List (String × Nat) :=
  if props.any (fun p => p.1 == key) then
    props.map (fun p => if p.1 == key then (key, a) else p)
  else props ++ [(key, a)]

/-- `JSONObject.Remove` on a heap object node. -/
def hobjRemove (props : List (String × Nat)) (key : String) : List (String × Nat) :=
  match props with
  | [] => []
  | p :: rest => if p.1 == key then rest else p :: hobjRemove rest key

/-- `pathSegment.apply` on heap addresses (the Go method's returned slice of
interface values is a slice of pointers, i.e. addresses). -/
def hsegmentApply (h : Heap) (seg : Segment) (a : Nat) : Except JSONError (List Nat) :=
  match seg with
  | .rootSeg => .ok [a]
  | .propSeg name =>
    match hget h a with
    | .hobj props =>
      match hobjFind props name with
      | some ca => .ok [ca]
      | none => .ok []
    | n => .error (errInvalidTypeWithDetails "object" n.typeName)
  | .indexSeg i =>
    match hget h a with
    | .harr elems =>
      if i < 0 || i ≥ (elems.length : Int) then .ok []
      else .ok [elems.getD i.toNat 0]
    | n => .error (errInvalidTypeWithDetails "array" n.typeName)
  | .wildcardSeg =>
    match hget h a with
    | .hobj props => .ok (props.map Prod.snd)
    | .harr elems => .ok elems
    | n => .error (errInvalidTypeWithDetails "object or array" n.typeName)
  | .sliceSeg start stop hasStart hasStop =>
    match hget h a with
    | .harr elems =>
      let size : Int := elems.length
      let start := if hasStart then start else 0
      let stop := if hasStop then stop else size
      let start := if start < 0 then size + start else start
      let stop := if stop < 0 then size + stop else stop
      let start := if start < 0 then 0 else start
      let stop := if stop > size then size else stop
      if start ≥ size || start ≥ stop then .ok []
      else .ok ((List.range (stop - start).toNat).map
        (fun i => elems.getD (start.toNat + i) 0))
    | n => .error (errInvalidTypeWithDetails "array" n.typeName)

/-- `JSONPath.Query` on heap addresses. -/
def hqueryLocs (h : Heap) : List Segment → List Nat → Except JSONError (List Nat)
  | [], current => .ok current
  | seg :: rest, current =>
    if current.isEmpty then .ok current
    else
      match collect seg current with
      | .error e => .error e
      | .ok next => hqueryLocs h rest next
where
  collect (seg : Segment) : List Nat → Except JSONError (List Nat)
    | [] => .ok []
    | a :: more =>
      match hsegmentApply h seg a with
      | .error e => .error e
      | .ok results =>
        match collect seg more with
        | .error e => .error e
        | .ok rest => .ok (results ++ rest)

/-- `jsonpath.QueryJSONPath` on heap addresses. -/
def hqueryJSONPath (h : Heap) (root : Nat) (pathExpr : String) :
    Except JSONError (List Nat) :=
  match parseJSONPath pathExpr with
  | .error e => .error e
  | .ok segs => hqueryLocs h segs [root]

/-- `applyAddOperation` on the heap: the parsed value is allocated fresh,
the parent node is mutated in place at its address. -/
def happlyAddOperation (h : Heap) (root : Nat) (path : String)
    (rawValue : Option JSONValue) : Except PatchFail (Heap × Nat) :=
  match parseBytesToValue rawValue with
  | .error _ => .error (.jsonErr (newJSONError .invalidPatch "无效的值"))
  | .ok newValue =>
    let alloc := allocTree h newValue
    let h := alloc.1
    let va := alloc.2
    if path == "$" then .ok (h, va)
    else
      match splitPath path with
      | none => .error (.runtimePanic "slice bounds out of range")
      | some (parentPath, lastSegment) =>
        match hqueryJSONPath h root parentPath with
        | .error _ =>
          .error (.jsonErr ((newJSONError .pathNotFound "父路径不存在").withPath parentPath))
        | .ok [] =>
          .error (.jsonErr ((newJSONError .pathNotFound "父路径不存在").withPath parentPath))
        | .ok (pa :: _) =>
          match hget h pa with
          | .hobj props => .ok (hset h pa (.hobj (hobjPut props lastSegment va)), root)
          | .harr elems =>
            match parseArrayIndex lastSegment elems.length with
            | .error e => .error (.jsonErr e)
            | .ok index =>
              if index == (elems.length : Int) then
                .ok (hset h pa (.harr (elems ++ [va])), root)
              else
                let filled := hfillNewArr h elems index va (List.range (elems.length + 1))
                .ok (hset filled.1 pa (.harr filled.2), root)
          | _ =>
            .error (.jsonErr ((newJSONError .invalidType "父路径必须是对象或数组").withPath parentPath))
where
  /-- The insertion loop building `newArr`; an out-of-range `arr.Get(i)`
  allocates a fresh null node (`NewJSONNull()`). -/
  hfillNewArr (h : Heap) (elems : List Nat) (index : Int) (va : Nat) :
      List Nat → Heap × List Nat
    | [] => (h, [])
    | i :: rest =>
      let step : Heap × Nat :=
        if (i : Int) < index then
          if i < elems.length then (h, elems.getD i 0) else halloc h .hnull
        else if (i : Int) == index then (h, va)
        else
          if i - 1 < elems.length then (h, elems.getD (i - 1) 0) else halloc h .hnull
      let more := hfillNewArr step.1 elems index va rest
      (more.1, step.2 :: more.2)

/-- `applyRemoveOperation` on the heap. -/
def happlyRemoveOperation (h : Heap) (root : Nat) (path : String) :
    Except PatchFail (Heap × Nat) :=
  if path == "$" then
    let alloc := halloc h .hnull
    .ok (alloc.1, alloc.2)
  else
    match splitPath path with
    | none => .error (.runtimePanic "slice bounds out of range")
    | some (parentPath, lastSegment) =>
      match hqueryJSONPath h root parentPath with
      | .error _ =>
        .error (.jsonErr ((newJSONError .pathNotFound "父路径不存在").withPath parentPath))
      | .ok [] =>
        .error (.jsonErr ((newJSONError .pathNotFound "父路径不存在").withPath parentPath))
      | .ok (pa :: _) =>
        match hget h pa with
        | .hobj props =>
          if !(props.any (fun p => p.1 == lastSegment)) then
            .error (.jsonErr ((newJSONError .pathNotFound "路径不存在").withPath path))
          else .ok (hset h pa (.hobj (hobjRemove props lastSegment)), root)
        | .harr elems =>
          match parseArrayIndex lastSegment elems.length with
          | .error e => .error (.jsonErr e)
          | .ok index =>
            if index ≥ (elems.length : Int) then
              .error (.jsonErr ((newJSONError .indexOutOfRange "索引超出范围").withPath path))
            else .ok (hset h pa (.harr (elems.eraseIdx index.toNat)), root)
        | _ =>
          .error (.jsonErr ((newJSONError .invalidType "父路径必须是对象或数组").withPath parentPath))

/-- `applyReplaceOperation` on the heap. -/
def happlyReplaceOperation (h : Heap) (root : Nat) (path : String)
    (rawValue : Option JSONValue) : Except PatchFail (Heap × Nat) :=
  match parseBytesToValue rawValue with
  | .error _ => .error (.jsonErr (newJSONError .invalidPatch "无效的值"))
  | .ok newValue =>
    let alloc := allocTree h newValue
    let h := alloc.1
    let va := alloc.2
    if path == "$" then .ok (h, va)
    else
      match splitPath path with
      | none => .error (.runtimePanic "slice bounds out of range")
      | some (parentPath, lastSegment) =>
        match hqueryJSONPath h root parentPath with
        | .error _ =>
          .error (.jsonErr ((newJSONError .pathNotFound "父路径不存在").withPath parentPath))
        | .ok [] =>
          .error (.jsonErr ((newJSONError .pathNotFound "父路径不存在").withPath parentPath))
        | .ok (pa :: _) =>
          match hget h pa with
          | .hobj props =>
            if !(props.any (fun p => p.1 == lastSegment)) then
              .error (.jsonErr ((newJSONError .pathNotFound "路径不存在").withPath path))
            else .ok (hset h pa (.hobj (hobjPut props lastSegment va)), root)
          | .harr elems =>
            match parseArrayIndex lastSegment elems.length with
            | .error e => .error (.jsonErr e)
            | .ok index =>
              if index ≥ (elems.length : Int) then
                .error (.jsonErr ((newJSONError .indexOutOfRange "索引超出范围").withPath path))
              else .ok (hset h pa (.harr (elems.set index.toNat va)), root)
          | _ =>
            .error (.jsonErr ((newJSONError .invalidType "父路径必须是对象或数组").withPath parentPath))

/-- `applyMoveOperation` on the heap: the source subtree is serialised and
re-parsed (a deep copy with fresh addresses) and added at the target. -/
def happlyMoveOperation (h : Heap) (root : Nat) (fromPath path : String) :
    Except PatchFail (Heap × Nat) :=
  match hqueryJSONPath h root fromPath with
  | .error _ =>
    .error (.jsonErr ((newJSONError .pathNotFound "源路径不存在").withPath fromPath))
  | .ok [] =>
    .error (.jsonErr ((newJSONError .pathNotFound "源路径不存在").withPath fromPath))
  | .ok (sa :: _) =>
    match happlyRemoveOperation h root fromPath with
    | .error e => .error e
    | .ok (h2, r2) =>
      happlyAddOperation h2 r2 path (some (marshalRoundtrip (readTree h2 sa)))

/-- `applyCopyOperation` on the heap. -/
def happlyCopyOperation (h : Heap) (root : Nat) (fromPath path : String) :
    Except PatchFail (Heap × Nat) :=
  match hqueryJSONPath h root fromPath with
  | .error _ =>
    .error (.jsonErr ((newJSONError .pathNotFound "源路径不存在").withPath fromPath))
  | .ok [] =>
    .error (.jsonErr ((newJSONError .pathNotFound "源路径不存在").withPath fromPath))
  | .ok (sa :: _) =>
    happlyAddOperation h root path (some (marshalRoundtrip (readTree h sa)))

/-- `applyTestOperation` on the heap: reads only — the heap and root come
back unchanged on success (the parsed test value only exists as garbage
unreachable from any tree, so its allocation is elided). -/
def happlyTestOperation (h : Heap) (root : Nat) (path : String)
    (rawValue : Option JSONValue) : Except PatchFail (Heap × Nat) :=
  match parseBytesToValue rawValue with
  | .error _ => .error (.jsonErr (newJSONError .invalidPatch "无效的值"))
  | .ok testValue =>
    match hqueryJSONPath h root path with
    | .error _ =>
      .error (.jsonErr ((newJSONError .pathNotFound "路径不存在").withPath path))
    | .ok [] =>
      .error (.jsonErr ((newJSONError .pathNotFound "路径不存在").withPath path))
    | .ok (ta :: _) =>
      let targetValue := readTree h ta
      if !compareValues targetValue testValue then
        .error (.jsonErr (errTestFailedWithDetails path testValue targetValue))
      else .ok (h, root)

/-- `applyOperation` on the heap. -/
def happlyOperation (h : Heap) (root : Nat) (op : PatchOperation) :
    Except PatchFail (Heap × Nat) :=
  let path := normalizePath op.path
  let fromP := normalizePath op.fromPath
  if op.op == "add" then happlyAddOperation h root path op.value
  else if op.op == "remove" then happlyRemoveOperation h root path
  else if op.op == "replace" then happlyReplaceOperation h root path op.value
  else if op.op == "move" then happlyMoveOperation h root fromP path
  else if op.op == "copy" then happlyCopyOperation h root fromP path
  else if op.op == "test" then happlyTestOperation h root path op.value
  else .error (.jsonErr (newJSONError .invalidPatch ("未知的操作类型: " ++ op.op)))

/-- The operation loop of `ApplyPatch` on the heap. -/
def happlyOps : Heap → Nat → List PatchOperation → Except PatchFail (Heap × Nat)
  | h, root, [] => .ok (h, root)
  | h, root, op :: rest =>
    match happlyOperation h root op with
    | .error e => .error e
    | .ok (h2, r2) => happlyOps h2 r2 rest

/-- `patch.ApplyPatch` on the heap: the clone block allocates a fresh root
container holding the same child addresses (a shallow copy), scalars are
used as-is; then the operations run in order. -/
def hApplyPatch (h : Heap) (root : Nat) (patchOps : List PatchOperation) :
    Except PatchFail (Heap × Nat) :=
  let cloned : Heap × Nat :=
    match hget h root with
    | .hobj props => halloc h (.hobj props)
    | .harr elems => halloc h (.harr elems)
    | _ => (h, root)
  happlyOps cloned.1 cloned.2 patchOps

/- ### Specification-level definitions -/

mutual

/-- Well-formed value: object keys are unique at every level (the data
model's invariant: an Object is a mapping with unique keys). -/
def wfB : JSONValue → Bool
  | .null | .bool _ | .num _ | .str _ => true
  | .arr elems => wfBList elems
  | .obj props => decide ((props.map Prod.fst).Nodup) && wfBProps props

def wfBList : List JSONValue → Bool
  | [] => true
  | v :: rest => wfB v && wfBList rest

def wfBProps : List (String × JSONValue) → Bool
  | [] => true
  | p :: rest => wfB p.2 && wfBProps rest

end

/-- Deep equality as claim C4 words it: same-type scalars with equal values;
arrays equal iff same length and element-wise equal in order; objects equal
iff same key set with equal values per key. -/
inductive SpecEq : JSONValue → JSONValue → Prop where
  | null : SpecEq .null .null
  | bool (b : Bool) : SpecEq (.bool b) (.bool b)
  | num (n : Int) : SpecEq (.num n) (.num n)
  | str (s : String) : SpecEq (.str s) (.str s)
  | arr (xs ys : List JSONValue) : xs.length = ys.length →
      (∀ i, i < xs.length → SpecEq (arrGet xs i) (arrGet ys i)) →
      SpecEq (.arr xs) (.arr ys)
  | obj (xs ys : List (String × JSONValue)) :
      (∀ k, objHas xs k = objHas ys k) →
      (∀ k, objHas xs k = true → SpecEq (objGet xs k) (objGet ys k)) →
      SpecEq (.obj xs) (.obj ys)

/-- A scalar in the sense of claim C6: Null, Boolean, Number or String. -/
def isScalar (v : JSONValue) : Bool := !(v.isObject || v.isArray)

/-- The value a pointer string addresses in a document, exactly as the patch
engine reads it: normalize, query, take the first match. -/
def addressedValue (root : JSONValue) (pointer : String) : Option JSONValue :=
  match queryJSONPath root (normalizePath pointer) with
  | .ok (t :: _) => some t
  | _ => none

/- ### Helper lemmas -/

theorem cloneRoot_eq (v : JSONValue) : cloneRoot v = v := by
  cases v <;> rfl

theorem JSONValue.size_pos (v : JSONValue) : 0 < v.size := by
  cases v <;> simp [JSONValue.size]

theorem sizeList_le_of_mem {v : JSONValue} {l : List JSONValue} (h : v ∈ l) :
    v.size ≤ JSONValue.sizeList l := by
  induction l with
  | nil => cases h
  | cons x xs ih =>
    rcases List.mem_cons.mp h with h1 | h1
    · subst h1; simp only [JSONValue.sizeList]; omega
    · have := ih h1
      simp only [JSONValue.sizeList]
      omega

theorem sizeProps_le_of_mem {p : String × JSONValue} {l : List (String × JSONValue)}
    (h : p ∈ l) : p.2.size ≤ JSONValue.sizeProps l := by
  induction l with
  | nil => cases h
  | cons x xs ih =>
    rcases List.mem_cons.mp h with h1 | h1
    · subst h1
      cases p
      simp only [JSONValue.sizeProps]
      omega
    · have := ih h1
      cases x
      simp only [JSONValue.sizeProps]
      omega

theorem getD_mem_of_lt {l : List JSONValue} {i : Nat} (h : i < l.length) :
    l.getD i JSONValue.null ∈ l := by
  induction l generalizing i with
  | nil => simp at h
  | cons x xs ih =>
    cases i with
    | zero => simp [List.getD_cons_zero]
    | succ n =>
      rw [List.getD_cons_succ]
      exact List.mem_cons_of_mem _ (ih (by simpa using h))

theorem getD_eq_null_of_ge {l : List JSONValue} {i : Nat} (h : l.length ≤ i) :
    l.getD i JSONValue.null = .null := by
  induction l generalizing i with
  | nil => simp [List.getD]
  | cons x xs ih =>
    cases i with
    | zero => simp at h
    | succ n =>
      rw [List.getD_cons_succ]
      exact ih (by simpa using h)

theorem arrGet_size_lt {elems : List JSONValue} {i : Nat} (h : i < elems.length) :
    (arrGet elems i).size < (JSONValue.arr elems).size := by
  have hm : arrGet elems i ∈ elems := getD_mem_of_lt h
  have := sizeList_le_of_mem hm
  simp only [JSONValue.size]
  omega

theorem objHas_iff_mem_keys {props : List (String × JSONValue)} {k : String} :
    objHas props k = true ↔ k ∈ objKeys props := by
  induction props with
  | nil => simp [objHas, objKeys]
  | cons p rest ih =>
    cases p with
    | mk pk pv =>
      by_cases he : pk = k
      · subst he
        simp [objHas, objKeys]
      · simp only [objHas, objKeys, List.any_cons, List.map_cons, List.mem_cons,
          Bool.or_eq_true] at *
        constructor
        · rintro (h1 | h1)
          · exact absurd (by simpa using h1) he
          · exact Or.inr (ih.mp h1)
        · rintro (h1 | h1)
          · exact absurd h1.symm he
          · exact Or.inr (ih.mpr h1)

theorem objGet_mem {props : List (String × JSONValue)} {k : String}
    (h : objHas props k = true) : (k, objGet props k) ∈ props := by
  induction props with
  | nil => simp [objHas] at h
  | cons p rest ih =>
    cases p with
    | mk pk pv =>
      by_cases he : pk = k
      · subst he
        simp [objGet, List.find?]
      · have h2 : objHas rest k = true := by
          simp only [objHas, List.any_cons, Bool.or_eq_true] at h
          rcases h with h1 | h1
          · exact absurd (by simpa using h1) he
          · exact h1
        have hrec := ih h2
        have hbe : (pk == k) = false := by simp [he]
        have : objGet ((pk, pv) :: rest) k = objGet rest k := by
          simp [objGet, List.find?, hbe]
        rw [this]
        exact List.mem_cons_of_mem _ hrec

theorem objGet_size_lt {props : List (String × JSONValue)} {k : String}
    (h : objHas props k = true) :
    (objGet props k).size < (JSONValue.obj props).size := by
  have hm := objGet_mem h
  have h2 : (objGet props k).size ≤ JSONValue.sizeProps props := by
    simpa using sizeProps_le_of_mem hm
  simp only [JSONValue.size]
  omega

theorem wfBList_mem {l : List JSONValue} {v : JSONValue}
    (h : wfBList l = true) (hm : v ∈ l) : wfB v = true := by
  induction l with
  | nil => cases hm
  | cons x xs ih =>
    simp [wfBList, Bool.and_eq_true] at h
    rcases List.mem_cons.mp hm with h1 | h1
    · subst h1; exact h.1
    · exact ih h.2 h1

theorem wfBProps_mem {l : List (String × JSONValue)} {p : String × JSONValue}
    (h : wfBProps l = true) (hm : p ∈ l) : wfB p.2 = true := by
  induction l with
  | nil => cases hm
  | cons x xs ih =>
    simp [wfBProps, Bool.and_eq_true] at h
    rcases List.mem_cons.mp hm with h1 | h1
    · subst h1; exact h.1
    · exact ih h.2 h1

theorem wfB_arr_eq (elems : List JSONValue) :
    wfB (.arr elems) = wfBList elems := rfl

theorem wfB_obj_eq (props : List (String × JSONValue)) :
    wfB (.obj props) = (decide ((props.map Prod.fst).Nodup) && wfBProps props) := rfl

theorem wfB_arrGet {elems : List JSONValue} (h : wfB (.arr elems) = true) (i : Nat) :
    wfB (arrGet elems i) = true := by
  by_cases hlt : i < elems.length
  · have hm : arrGet elems i ∈ elems := getD_mem_of_lt hlt
    rw [wfB_arr_eq] at h
    exact wfBList_mem h hm
  · have : arrGet elems i = .null := getD_eq_null_of_ge (by omega)
    rw [this]; rfl

theorem wfB_objGet {props : List (String × JSONValue)}
    (h : wfB (.obj props) = true) (k : String) : wfB (objGet props k) = true := by
  by_cases hh : objHas props k = true
  · have hm := objGet_mem hh
    rw [wfB_obj_eq, Bool.and_eq_true] at h
    exact wfBProps_mem h.2 hm
  · have hfalse : props.any (fun q => q.1 == k) = false := by
      cases hany : props.any (fun q => q.1 == k) with
      | true => exact absurd hany hh
      | false => rfl
    have : props.find? (fun q => q.1 == k) = none := by
      rw [List.find?_eq_none]
      intro p hp hpk
      have : props.any (fun q => q.1 == k) = true :=
        List.any_eq_true.mpr ⟨p, hp, hpk⟩
      rw [hfalse] at this
      cases this
    rw [show objGet props k = .null by simp [objGet, this]]
    rfl

theorem wfB_obj_nodup {props : List (String × JSONValue)}
    (h : wfB (.obj props) = true) : (objKeys props).Nodup := by
  rw [wfB_obj_eq, Bool.and_eq_true] at h
  exact of_decide_eq_true h.1

theorem wfB_getAtLoc (loc : List Step) :
    ∀ v : JSONValue, wfB v = true → wfB (getAtLoc v loc) = true := by
  induction loc with
  | nil => intro v h; exact h
  | cons s rest ih =>
    intro v h
    cases s with
    | key k =>
      cases v with
      | obj props => exact ih _ (wfB_objGet h k)
      | null => exact rfl
      | bool b => exact rfl
      | num n => exact rfl
      | str s => exact rfl
      | arr elems => exact rfl
    | idx i =>
      cases v with
      | arr elems => exact ih _ (wfB_arrGet h i)
      | null => exact rfl
      | bool b => exact rfl
      | num n => exact rfl
      | str s => exact rfl
      | obj props => exact rfl

theorem mem_insertStr {x s : String} {l : List String} :
    x ∈ insertStr s l ↔ x = s ∨ x ∈ l := by
  induction l with
  | nil => simp [insertStr]
  | cons t rest ih =>
    simp only [insertStr]
    by_cases hle : charsLe s.data t.data = true
    · rw [if_pos hle]
      simp
    · rw [if_neg hle]
      simp only [List.mem_cons, ih]
      tauto

theorem mem_sortStrings {x : String} {l : List String} :
    x ∈ sortStrings l ↔ x ∈ l := by
  induction l with
  | nil => simp [sortStrings]
  | cons s rest ih => simp [sortStrings, mem_insertStr, ih]

theorem mem_dedupSeen {x : String} :
    ∀ (l seen : List String), x ∈ dedupSeen seen l ↔ (x ∈ l ∧ x ∉ seen) := by
  intro l
  induction l with
  | nil => intro seen; simp [dedupSeen]
  | cons k rest ih =>
    intro seen
    simp only [dedupSeen]
    by_cases hc : seen.contains k
    · have hk : k ∈ seen := by simpa using hc
      simp only [hc, if_true, ih, List.mem_cons]
      constructor
      · rintro ⟨h1, h2⟩; exact ⟨Or.inr h1, h2⟩
      · rintro ⟨h1 | h1, h2⟩
        · subst h1; exact absurd hk h2
        · exact ⟨h1, h2⟩
    · have hk : k ∉ seen := by simpa using hc
      simp only [hc, Bool.false_eq_true, if_false, List.mem_cons, ih]
      constructor
      · rintro (h1 | ⟨h1, h2⟩)
        · subst h1; exact ⟨Or.inl rfl, hk⟩
        · simp at h2
          exact ⟨Or.inr h1, h2.2⟩
      · rintro ⟨h1 | h1, h2⟩
        · subst h1; exact Or.inl rfl
        · by_cases hx : x = k
          · subst hx; exact Or.inl rfl
          · exact Or.inr ⟨h1, by simp [hx, h2]⟩

theorem mem_mergeKeys {x : String} {a b : List String} :
    x ∈ mergeKeys a b ↔ x ∈ a ∨ x ∈ b := by
  simp [mergeKeys, mem_sortStrings, mem_dedupSeen, List.mem_append]

theorem applyOps_append (l1 l2 : List PatchOperation) :
    ∀ v, applyOps v (l1 ++ l2) =
      match applyOps v l1 with
      | .ok v2 => applyOps v2 l2
      | .error e => .error e := by
  induction l1 with
  | nil => intro v; simp [applyOps]
  | cons op rest ih =>
    intro v
    simp only [List.cons_append, applyOps]
    cases applyOperation v op with
    | error e => rfl
    | ok v2 => exact ih v2

theorem flatMap_nil_of_forall {α β : Type} {l : List α} {f : α → List β}
    (h : ∀ a ∈ l, f a = []) : l.flatMap f = [] := by
  induction l with
  | nil => rfl
  | cons x xs ih =>
    simp only [List.flatMap_cons]
    rw [h x (by simp), ih (fun a ha => h a (by simp [ha]))]
    rfl

theorem diffValuesF_self_nil :
    ∀ (fuel : Nat) (path : String) (v : JSONValue) (options : DiffOptions)
      (depth : Int), options.includeSame = false →
      diffValuesF fuel path v v options depth = [] := by
  intro fuel
  induction fuel with
  | zero => intro path v options depth _; rfl
  | succ fuel ih =>
    intro path v options depth hinc
    cases v with
    | null => simp [diffValuesF, JSONValue.isNull, hinc]
    | bool b =>
      simp [diffValuesF, diffByType, JSONValue.isNull, JSONValue.typeName, diffBooleans, hinc]
    | num n =>
      simp [diffValuesF, diffByType, JSONValue.isNull, JSONValue.typeName, diffNumbers, hinc]
    | str s =>
      simp [diffValuesF, diffByType, JSONValue.isNull, JSONValue.typeName, diffStrings, hinc]
    | arr elems =>
      have harr : ∀ dep : Int,
          diffArraysInOrder (fun p o n d => diffValuesF fuel p o n options d)
            path elems elems dep = [] := by
        intro dep
        unfold diffArraysInOrder
        apply flatMap_nil_of_forall
        intro i hi
        have hlt : i < elems.length := by
          have := List.mem_range.mp hi
          simpa using this
        rw [if_neg (by omega), if_neg (by omega)]
        exact ih _ _ _ _ hinc
      simp [diffValuesF, diffByType, JSONValue.isNull, JSONValue.typeName,
        diffArraysAsSet, harr, hinc]
    | obj props =>
      have hobj : ∀ dep : Int,
          diffObjects (fun p o n d => diffValuesF fuel p o n options d)
            path props props dep = [] := by
        intro dep
        unfold diffObjects
        apply flatMap_nil_of_forall
        intro k hk
        have hkk : k ∈ objKeys props := by
          rcases mem_mergeKeys.mp hk with h | h <;> exact h
        have hhas : objHas props k = true := objHas_iff_mem_keys.mpr hkk
        rw [if_pos (by simp [hhas])]
        exact ih _ _ _ _ hinc
      simp [diffValuesF, diffByType, JSONValue.isNull, JSONValue.typeName, hobj, hinc]

theorem mem_ite_pair {α : Type} {d : α} {c1 c2 : Prop} [Decidable c1] [Decidable c2]
    {x y : α} (h : d ∈ (if c1 then (if c2 then [x] else []) else [y])) :
    d = x ∨ d = y := by
  split at h
  · split at h
    · left; simpa using h
    · cases h
  · right; simpa using h

theorem mem_diffBooleans_dtype {d : Diff} {path : String} {o n : JSONValue}
    {opts : DiffOptions} (h : d ∈ diffBooleans path o n opts) :
    d.dtype = .modified ∨ d.dtype = .same := by
  have h2 : d = (⟨.same, path, o, n⟩ : Diff) ∨ d = (⟨.modified, path, o, n⟩ : Diff) :=
    mem_ite_pair h
  rcases h2 with h2 | h2 <;> subst h2
  · right; rfl
  · left; rfl

theorem mem_diffNumbers_dtype {d : Diff} {path : String} {o n : JSONValue}
    {opts : DiffOptions} (h : d ∈ diffNumbers path o n opts) :
    d.dtype = .modified ∨ d.dtype = .same := by
  have h2 : d = (⟨.same, path, o, n⟩ : Diff) ∨ d = (⟨.modified, path, o, n⟩ : Diff) :=
    mem_ite_pair h
  rcases h2 with h2 | h2 <;> subst h2
  · right; rfl
  · left; rfl

theorem mem_diffStrings_dtype {d : Diff} {path : String} {o n : JSONValue}
    {opts : DiffOptions} (h : d ∈ diffStrings path o n opts) :
    d.dtype = .modified ∨ d.dtype = .same := by
  have h2 : d = (⟨.same, path, o, n⟩ : Diff) ∨ d = (⟨.modified, path, o, n⟩ : Diff) :=
    mem_ite_pair h
  rcases h2 with h2 | h2 <;> subst h2
  · right; rfl
  · left; rfl

theorem maxLen_comm (m n : Nat) :
    (if m > n then m else n) = (if n > m then n else m) := by
  by_cases h1 : m > n <;> by_cases h2 : n > m <;> simp [h1, h2] <;> omega

theorem diffArraysAsSet_eq (rec : String → JSONValue → JSONValue → Int → List Diff)
    (path : String) (oldArr newArr : List JSONValue) (depth : Int) :
    diffArraysAsSet rec path oldArr newArr depth =
      diffArraysInOrder rec path oldArr newArr depth := rfl

theorem diffValuesF_added_to_removed :
    ∀ (fuel : Nat) (path : String) (a b : JSONValue) (options : DiffOptions)
      (depth : Int) (d : Diff),
      d ∈ diffValuesF fuel path a b options depth → d.dtype = .added →
      ∃ d2 ∈ diffValuesF fuel path b a options depth,
        d2.dtype = .removed ∧ d2.path = d.path := by
  intro fuel
  induction fuel with
  | zero => intro path a b options depth d hd _; cases hd
  | succ fuel ih =>
    intro path a b options depth d hd hadd
    rw [diffValuesF] at hd
    split at hd
    case isTrue hmd =>
      cases hd
    case isFalse hmd =>
      rw [diffValuesF, if_neg hmd]
      by_cases ha : a.isNull = true <;> by_cases hb : b.isNull = true
      · -- both null: only a Same record can be emitted
        simp only [ha, hb, Bool.and_self, if_true] at hd
        split at hd
        · rw [List.mem_singleton] at hd; subst hd; cases hadd
        · cases hd
      · -- a null, b not: hd is the Added record; swapped run emits Removed
        simp only [Bool.not_eq_true] at hb
        simp [ha, hb] at hd
        subst hd
        refine ⟨⟨.removed, path, b, a⟩, ?_, rfl, rfl⟩
        simp [ha, hb]
      · -- b null, a not: hd is a Removed record, never Added
        simp only [Bool.not_eq_true] at ha
        simp [ha, hb] at hd
        subst hd; cases hadd
      · -- neither null
        simp only [Bool.not_eq_true] at ha hb
        simp only [ha, hb, Bool.false_and, Bool.and_false, Bool.false_eq_true,
          if_false] at hd ⊢
        by_cases ht : (a.typeName != b.typeName) = true
        · rw [if_pos ht] at hd
          rw [List.mem_singleton] at hd; subst hd; cases hadd
        · have ht2 : ¬ ((b.typeName != a.typeName) = true) := by
            intro hcon
            apply ht
            simp only [bne_iff_ne] at hcon ⊢
            exact fun he => hcon he.symm
          rw [if_neg ht] at hd
          rw [if_neg ht2]
          clear ht ht2
          cases a <;> cases b <;>
            first
            | (exact absurd ha (by decide))
            | (exact absurd hb (by decide))
            | (cases (show d ∈ ([] : List Diff) from hd))
            | skip
          -- remaining goals, in order: bool/bool, num/num, str/str, arr/arr, obj/obj
          · next x y =>
            rcases mem_diffBooleans_dtype
                (show d ∈ diffBooleans path (.bool x) (.bool y) options from hd)
              with h | h <;> rw [hadd] at h <;> cases h
          · next x y =>
            rcases mem_diffNumbers_dtype
                (show d ∈ diffNumbers path (.num x) (.num y) options from hd)
              with h | h <;> rw [hadd] at h <;> cases h
          · next x y =>
            rcases mem_diffStrings_dtype
                (show d ∈ diffStrings path (.str x) (.str y) options from hd)
              with h | h <;> rw [hadd] at h <;> cases h
          · next xs ys =>
            replace hd :
                d ∈ diffArraysInOrder (fun p o n dep => diffValuesF fuel p o n options dep)
                  path xs ys depth := by
              have hd2 :
                  d ∈ (if options.ignoreOrder = true then
                    diffArraysAsSet (fun p o n dep => diffValuesF fuel p o n options dep)
                      path xs ys depth
                  else
                    diffArraysInOrder (fun p o n dep => diffValuesF fuel p o n options dep)
                      path xs ys depth) := hd
              rwa [diffArraysAsSet_eq, ite_self] at hd2
            rw [show diffByType (fun p o n dep => diffValuesF fuel p o n options dep)
                  path (.arr ys) (.arr xs) options depth =
                diffArraysInOrder (fun p o n dep => diffValuesF fuel p o n options dep)
                  path ys xs depth from by
              show (if options.ignoreOrder = true then
                  diffArraysAsSet (fun p o n dep => diffValuesF fuel p o n options dep)
                    path ys xs depth
                else
                  diffArraysInOrder (fun p o n dep => diffValuesF fuel p o n options dep)
                    path ys xs depth) = _
              rw [diffArraysAsSet_eq, ite_self]]
            unfold diffArraysInOrder at hd ⊢
            obtain ⟨i, hiR, hiM⟩ := List.mem_flatMap.mp hd
            have hiLt := List.mem_range.mp hiR
            by_cases hix : i ≥ xs.length
            · rw [if_pos hix] at hiM
              rw [List.mem_singleton] at hiM; subst hiM
              have hiy : i < ys.length := by
                by_cases hgt : ys.length > xs.length
                · rw [if_pos hgt] at hiLt; omega
                · rw [if_neg hgt] at hiLt; omega
              refine ⟨⟨.removed, path ++ "[" ++ toString i ++ "]", arrGet ys i, .null⟩,
                ?_, rfl, rfl⟩
              refine List.mem_flatMap.mpr ⟨i, List.mem_range.mpr ?_, ?_⟩
              · rw [maxLen_comm]; exact hiLt
              · rw [if_neg (by omega), if_pos hix]
                exact List.mem_singleton.mpr rfl
            · by_cases hiy : i ≥ ys.length
              · rw [if_neg hix, if_pos hiy] at hiM
                rw [List.mem_singleton] at hiM; subst hiM; cases hadd
              · rw [if_neg hix, if_neg hiy] at hiM
                obtain ⟨d2, hd2, hrem, hpath⟩ := ih _ _ _ _ _ _ hiM hadd
                refine ⟨d2, ?_, hrem, hpath⟩
                refine List.mem_flatMap.mpr ⟨i, List.mem_range.mpr ?_, ?_⟩
                · rw [maxLen_comm]; exact hiLt
                · rw [if_neg (by omega), if_neg (by omega)]
                  exact hd2
          · next xs ys =>
            replace hd :
                d ∈ diffObjects (fun p o n dep => diffValuesF fuel p o n options dep)
                  path xs ys depth := hd
            rw [show diffByType (fun p o n dep => diffValuesF fuel p o n options dep)
                  path (.obj ys) (.obj xs) options depth =
                diffObjects (fun p o n dep => diffValuesF fuel p o n options dep)
                  path ys xs depth from rfl]
            unfold diffObjects at hd ⊢
            obtain ⟨k, hkM, hkd⟩ := List.mem_flatMap.mp hd
            have hkM2 : k ∈ mergeKeys (objKeys ys) (objKeys xs) :=
              mem_mergeKeys.mpr (Or.symm (mem_mergeKeys.mp hkM))
            simp only [] at hkd
            by_cases hox : objHas xs k = true <;> by_cases hoy : objHas ys k = true
            · rw [if_pos (by simp [hox, hoy])] at hkd
              obtain ⟨d2, hd2, hrem, hpath⟩ := ih _ _ _ _ _ _ hkd hadd
              refine ⟨d2, ?_, hrem, hpath⟩
              refine List.mem_flatMap.mpr ⟨k, hkM2, ?_⟩
              simp only []
              rw [if_pos (by simp [hox, hoy])]
              exact hd2
            · rw [if_neg (by simp [hoy]), if_pos hox] at hkd
              rw [List.mem_singleton] at hkd; subst hkd; cases hadd
            · rw [if_neg (by simp [hox]), if_neg (by simp [hox])] at hkd
              rw [List.mem_singleton] at hkd; subst hkd
              refine ⟨⟨.removed, propPathOf path k, objGet ys k, .null⟩, ?_, rfl, rfl⟩
              refine List.mem_flatMap.mpr ⟨k, hkM2, ?_⟩
              simp only []
              rw [if_neg (by simp [hox]), if_pos hoy]
              exact List.mem_singleton.mpr rfl
            · rcases mem_mergeKeys.mp hkM with h | h
              · exact absurd (objHas_iff_mem_keys.mpr h) hox
              · exact absurd (objHas_iff_mem_keys.mpr h) hoy

theorem queryJSONPath_wf {d : JSONValue} {p : String} {l : List JSONValue}
    (h : queryJSONPath d p = .ok l) (hwd : wfB d = true) :
    ∀ t ∈ l, wfB t = true := by
  unfold queryJSONPath at h
  cases hql : queryPathLocs d p with
  | error e => rw [hql] at h; exact Except.noConfusion h
  | ok locs =>
    rw [hql] at h
    injection h with h2
    subst h2
    intro t ht
    obtain ⟨loc, _, rfl⟩ := List.mem_map.mp ht
    exact wfB_getAtLoc loc d hwd

theorem compareValuesF_iff_specEq :
    ∀ (fuel : Nat) (a b : JSONValue), a.size ≤ fuel →
      wfB a = true → wfB b = true →
      (compareValuesF fuel a b = true ↔ SpecEq a b) := by
  intro fuel
  induction fuel with
  | zero =>
    intro a b hsz _ _
    have := JSONValue.size_pos a
    omega
  | succ fuel ih =>
    intro a b hsz hwa hwb
    cases a <;> cases b <;>
      first
      | (exact iff_of_false
          (fun h => Bool.noConfusion (show (false : Bool) = true from h))
          (fun h => nomatch h))
      | skip
    -- remaining, in order: null/null, bool/bool, num/num, str/str, arr/arr, obj/obj
    · exact iff_of_true rfl SpecEq.null
    · next x y =>
      constructor
      · intro h
        have h2 : x = y := by simpa using (show (x == y) = true from h)
        subst h2; exact SpecEq.bool x
      · intro h
        cases h
        show (x == x) = true
        simp
    · next x y =>
      constructor
      · intro h
        have h2 : x = y := by simpa using (show (x == y) = true from h)
        subst h2; exact SpecEq.num x
      · intro h
        cases h
        show (x == x) = true
        simp
    · next x y =>
      constructor
      · intro h
        have h2 : x = y := by simpa using (show (x == y) = true from h)
        subst h2; exact SpecEq.str x
      · intro h
        cases h
        show (x == x) = true
        simp
    · next xs ys =>
      have hred : compareValuesF (fuel + 1) (.arr xs) (.arr ys) =
          (xs.length == ys.length &&
            (List.range xs.length).all
              (fun i => compareValuesF fuel (arrGet xs i) (arrGet ys i))) := rfl
      rw [hred]
      have hszxs : (JSONValue.arr xs).size ≤ fuel + 1 := hsz
      constructor
      · intro h
        rw [Bool.and_eq_true] at h
        obtain ⟨hlen, hall⟩ := h
        refine SpecEq.arr xs ys (by simpa using hlen) ?_
        intro i hi
        have hmem := List.all_eq_true.mp hall i (List.mem_range.mpr hi)
        have hszi : (arrGet xs i).size ≤ fuel := by
          have := arrGet_size_lt hi
          omega
        exact (ih _ _ hszi (wfB_arrGet hwa i) (wfB_arrGet hwb i)).mp hmem
      · intro h
        cases h with
        | arr _ _ hlen hall =>
          rw [Bool.and_eq_true]
          refine ⟨by simpa using hlen, ?_⟩
          rw [List.all_eq_true]
          intro i hiR
          have hi := List.mem_range.mp hiR
          have hszi : (arrGet xs i).size ≤ fuel := by
            have := arrGet_size_lt hi
            omega
          exact (ih _ _ hszi (wfB_arrGet hwa i) (wfB_arrGet hwb i)).mpr (hall i hi)
    · next xs ys =>
      have hred : compareValuesF (fuel + 1) (.obj xs) (.obj ys) =
          (xs.length == ys.length &&
            (objKeys xs).all
              (fun k => objHas ys k && compareValuesF fuel (objGet xs k) (objGet ys k))) := rfl
      rw [hred]
      have hszxs : (JSONValue.obj xs).size ≤ fuel + 1 := hsz
      have hndx : (objKeys xs).Nodup := wfB_obj_nodup hwa
      have hndy : (objKeys ys).Nodup := wfB_obj_nodup hwb
      have hlenx : (objKeys xs).length = xs.length := by simp [objKeys]
      have hleny : (objKeys ys).length = ys.length := by simp [objKeys]
      constructor
      · intro h
        rw [Bool.and_eq_true] at h
        obtain ⟨hlen, hall⟩ := h
        have hlen2 : xs.length = ys.length := by simpa using hlen
        have hsub : ∀ k ∈ objKeys xs, k ∈ objKeys ys := by
          intro k hk
          have h2 := List.all_eq_true.mp hall k hk
          rw [Bool.and_eq_true] at h2
          exact objHas_iff_mem_keys.mp h2.1
        have hsetEq : (objKeys xs).toFinset = (objKeys ys).toFinset := by
          apply Finset.eq_of_subset_of_card_le
          · intro k hk
            rw [List.mem_toFinset] at hk ⊢
            exact hsub k hk
          · rw [List.toFinset_card_of_nodup hndx, List.toFinset_card_of_nodup hndy]
            omega
        refine SpecEq.obj xs ys ?_ ?_
        · intro k
          by_cases hkx : objHas xs k = true
          · have hky : objHas ys k = true :=
              objHas_iff_mem_keys.mpr (hsub k (objHas_iff_mem_keys.mp hkx))
            rw [hkx, hky]
          · have hx2 : objHas xs k = false := by
              revert hkx; cases objHas xs k <;> simp
            have hy2 : objHas ys k = false := by
              by_contra hcon
              have hy3 : objHas ys k = true := by
                revert hcon; cases objHas ys k <;> simp
              have hky : k ∈ (objKeys ys).toFinset :=
                List.mem_toFinset.mpr (objHas_iff_mem_keys.mp hy3)
              rw [← hsetEq, List.mem_toFinset] at hky
              exact hkx (objHas_iff_mem_keys.mpr hky)
            rw [hx2, hy2]
        · intro k hk
          have h2 := List.all_eq_true.mp hall k (objHas_iff_mem_keys.mp hk)
          rw [Bool.and_eq_true] at h2
          have hszk : (objGet xs k).size ≤ fuel := by
            have := objGet_size_lt hk
            omega
          exact (ih _ _ hszk (wfB_objGet hwa k) (wfB_objGet hwb k)).mp h2.2
      · intro h
        cases h with
        | obj _ _ hhas hvals =>
          have hsetEq : (objKeys xs).toFinset = (objKeys ys).toFinset := by
            ext k
            rw [List.mem_toFinset, List.mem_toFinset, ← objHas_iff_mem_keys,
              ← objHas_iff_mem_keys, hhas k]
          have hcard : (objKeys xs).length = (objKeys ys).length := by
            rw [← List.toFinset_card_of_nodup hndx, ← List.toFinset_card_of_nodup hndy,
              hsetEq]
          rw [Bool.and_eq_true]
          refine ⟨by simp; omega, ?_⟩
          rw [List.all_eq_true]
          intro k hk
          have hkx : objHas xs k = true := objHas_iff_mem_keys.mpr hk
          have hky : objHas ys k = true := by rw [← hhas k]; exact hkx
          rw [Bool.and_eq_true]
          have hszk : (objGet xs k).size ≤ fuel := by
            have := objGet_size_lt hkx
            omega
          exact ⟨hky, (ih _ _ hszk (wfB_objGet hwa k) (wfB_objGet hwb k)).mpr (hvals k hkx)⟩

theorem findIdx?_append_all_false (p : Char → Bool) (l1 l2 : List Char) :
    ∀ i : Nat, (∀ c ∈ l1, p c = false) →
      List.findIdx? p (l1 ++ l2) i = List.findIdx? p l2 (i + l1.length) := by
  induction l1 with
  | nil => intro i _; simp
  | cons c cs ih =>
    intro i h
    rw [List.cons_append, List.findIdx?_cons, h c (by simp), if_neg (by simp)]
    rw [ih (i + 1) (fun x hx => h x (by simp [hx]))]
    congr 1
    simp
    omega

theorem isArrayIndex_all_digits {s : String} (h : isArrayIndex s = true) :
    s.data.all isDigitGo = true := by
  unfold isArrayIndex at h
  split at h
  · next heq =>
    have h2 : s = "0" := by simpa using heq
    subst h2
    decide
  · split at h
    · cases h
    · next c rest heq =>
      split at h
      · rw [heq] at h ⊢
        exact h
      · cases h

theorem not_mem_of_all_digits {l : List Char} (hall : l.all isDigitGo = true)
    {c : Char} (hc : isDigitGo c = false) : c ∉ l := by
  intro hm
  have := List.all_eq_true.mp hall c hm
  rw [hc] at this
  cases this

theorem splitOnChar_no_sep {sep : Char} :
    ∀ {cs : List Char}, sep ∉ cs → splitOnChar sep cs = [cs] := by
  intro cs
  induction cs with
  | nil => intro _; rfl
  | cons c rest ih =>
    intro h
    have hc : c ≠ sep := fun he => h (by simp [he])
    have hrest : sep ∉ rest := fun hm => h (by simp [hm])
    rw [splitOnChar, ih hrest]
    simp [hc]

theorem replacePair_not_mem {p1 p2 r : Char} :
    ∀ {cs : List Char}, p1 ∉ cs → replacePair p1 p2 r cs = cs := by
  intro cs
  induction cs with
  | nil => intro _; rfl
  | cons c rest ih =>
    intro h
    have hc : c ≠ p1 := fun he => h (by simp [he])
    have hrest : p1 ∉ rest := fun hm => h (by simp [hm])
    cases rest with
    | nil => rfl
    | cons c2 rest2 =>
      rw [replacePair, if_neg (by simp [hc])]
      rw [ih hrest]

theorem normalizePath_slash_index (s : String) (h : isArrayIndex s = true) :
    normalizePath ("/" ++ s) = "$[" ++ s ++ "]" := by
  obtain ⟨sd⟩ := s
  have hall : sd.all isDigitGo = true := isArrayIndex_all_digits h
  have hslash : '/' ∉ sd := not_mem_of_all_digits hall (by decide)
  have htilde : '~' ∉ sd := not_mem_of_all_digits hall (by decide)
  have hne : (("/" ++ String.mk sd) == "") = false := rfl
  have hsplit : splitOnChar '/' ('/' :: sd) = [[], sd] := by
    rw [splitOnChar, splitOnChar_no_sep hslash]
    simp
  unfold normalizePath
  rw [hne]
  simp only [Bool.false_eq_true, if_false]
  rw [show ("/" ++ String.mk sd).data = '/' :: sd from rfl]
  rw [hsplit]
  simp only [List.foldl]
  rw [replacePair_not_mem htilde, replacePair_not_mem htilde, h]
  rw [if_pos rfl]
  rw [show ("$" ++ "[" : String) = "$[" by decide]

theorem splitPath_root_bracket (s : String) (hnb : '[' ∉ s.data)
    (hrb : ']' ∉ s.data) : splitPath ("$[" ++ s ++ "]") = some ("$", s) := by
  obtain ⟨sd⟩ := s
  have hfind : lastIndexOfChar '[' ('$' :: '[' :: (sd ++ [']'])) = some 1 := by
    unfold lastIndexOfChar
    have hrev : ('$' :: '[' :: (sd ++ [']'])).reverse =
        (']' :: sd.reverse) ++ ['[', '$'] := by simp
    rw [hrev]
    rw [findIdx?_append_all_false _ _ _ 0 (by
      intro c hc
      rcases List.mem_cons.mp hc with h1 | h1
      · subst h1; decide
      · have hmem : c ∈ sd := List.mem_reverse.mp h1
        have hne : c ≠ '[' := fun he => hnb (he ▸ hmem)
        simp [hne])]
    rw [List.findIdx?_cons, if_pos (by decide)]
    show some (('$' :: '[' :: (sd ++ [']'])).length - 1 - (0 + (']' :: sd.reverse).length)) =
      some 1
    have harith : ('$' :: '[' :: (sd ++ [']'])).length - 1 - (0 + (']' :: sd.reverse).length) = 1 := by
      simp
    rw [harith]
  have hgl : ('$' :: '[' :: (sd ++ [']'])).getLast? = some ']' := by
    rw [show ('$' :: '[' :: (sd ++ [']'])) = ('$' :: '[' :: sd) ++ [']'] by simp]
    exact List.getLast?_concat _
  unfold splitPath
  rw [show ("$[" ++ String.mk sd ++ "]").data = '$' :: '[' :: (sd ++ [']']) from rfl]
  simp only []
  rw [hgl, hfind]
  rw [if_pos (show ((some ']') == some ']') = true from rfl)]
  show some (String.mk (List.take 1 ('$' :: '[' :: (sd ++ [']']))),
      String.mk (List.take (('$' :: '[' :: (sd ++ [']'])).length - 1 - (1 + 1))
        (List.drop (1 + 1) ('$' :: '[' :: (sd ++ [']']))))) =
    some ("$", String.mk sd)
  have h1 : List.take 1 ('$' :: '[' :: (sd ++ [']'])) = ['$'] := rfl
  have h2 : List.drop (1 + 1) ('$' :: '[' :: (sd ++ [']'])) = sd ++ [']'] := rfl
  have h3 : ('$' :: '[' :: (sd ++ [']'])).length - 1 - (1 + 1) = sd.length := by simp
  rw [h1, h2, h3, List.take_left]

theorem range_map_arrGet (elems : List JSONValue) :
    (List.range (elems.length + 1)).map (fun j => arrGet elems j) =
      elems ++ [JSONValue.null] := by
  induction elems with
  | nil => rfl
  | cons a as ih =>
    rw [show (a :: as).length + 1 = (as.length + 1) + 1 from rfl]
    rw [List.range_succ_eq_map, List.map_cons, List.map_map]
    have hc : (List.range (as.length + 1)).map
        ((fun j => arrGet (a :: as) j) ∘ Nat.succ) =
        (List.range (as.length + 1)).map (fun j => arrGet as j) :=
      List.map_congr_left (fun j _ => rfl)
    rw [hc, ih]
    rfl

/- ### Claim theorems -/

/-- C1: the diff/patch round trip fails on the code.  For D = `{"age":30}`
and D2 = `{"age":31}` (which differ by a single Modified leaf), the diff is
the expected Modified record, but `GeneratePatch` emits the pointer
`"/~1age"` — `jsonPathToPatchPath` escapes the separator slash it just
created — so `ApplyPatch(D, ...)` normalizes it to the key `/age`, fails
with PathNotFound, and does not return D2. -/
theorem C1_generated_patch_round_trip_fails :
    DiffJSON (.obj [("age", .num 30)]) (.obj [("age", .num 31)]) none =
      [⟨.modified, "$.age", .num 30, .num 31⟩] ∧
    GeneratePatch [⟨.modified, "$.age", .num 30, .num 31⟩] =
      .arr [.obj [("op", .str "replace"), ("path", .str "/~1age"),
                  ("value", .num 31)]] ∧
    patchDocToOps
      (.arr [.obj [("op", .str "replace"), ("path", .str "/~1age"),
                   ("value", .num 31)]]) =
      some [{ op := "replace", path := "/~1age", value := some (.num 31) }] ∧
    ApplyPatch (.obj [("age", .num 30)])
      [{ op := "replace", path := "/~1age", value := some (.num 31) }] =
      .error (.jsonErr ⟨.pathNotFound, "路径不存在", "$./age"⟩) :=
  ⟨rfl, rfl, rfl, rfl⟩

/-- C2: `ApplyPatch` does not operate on an independent deep copy.  In the
heap model, D = `{"a":{"b":1}}` occupies addresses 0..2 with root 2; the
clone (address 3) shares the child at address 1, so the add at `/a/c`
mutates address 1 in place and the caller's original root 2 afterwards
reads back `{"a":{"b":1,"c":2}}`, not its pre-call value. -/
theorem C2_shallow_clone_mutates_original :
    allocTree [] (.obj [("a", .obj [("b", .num 1)])]) =
      ([.hnum 1, .hobj [("b", 0)], .hobj [("a", 1)]], 2) ∧
    hApplyPatch [.hnum 1, .hobj [("b", 0)], .hobj [("a", 1)]] 2
      [{ op := "add", path := "/a/c", value := some (.num 2) }] =
      .ok ([.hnum 1, .hobj [("b", 0), ("c", 4)], .hobj [("a", 1)],
            .hobj [("a", 1)], .hnum 2], 3) ∧
    readTree [.hnum 1, .hobj [("b", 0)], .hobj [("a", 1)]] 2 =
      .obj [("a", .obj [("b", .num 1)])] ∧
    readTree [.hnum 1, .hobj [("b", 0), ("c", 4)], .hobj [("a", 1)],
              .hobj [("a", 1)], .hnum 2] 2 =
      .obj [("a", .obj [("b", .num 1), ("c", .num 2)])] ∧
    readTree [.hnum 1, .hobj [("b", 0), ("c", 4)], .hobj [("a", 1)],
              .hobj [("a", 1)], .hnum 2] 2 ≠
      readTree [.hnum 1, .hobj [("b", 0)], .hobj [("a", 1)]] 2 :=
  ⟨rfl, rfl, rfl, rfl,
    fun hcontra => absurd (congrArg JSONValue.size hcontra) (by decide)⟩

/-- C3 counterexample: an `add` whose path is the document root succeeds
with a non-Object value — the root branch of `applyAddOperation` returns
the parsed value with no Object restriction, contradicting the claim that
such an add must fail. -/
theorem C3_counterexample_root_add_nonobject :
    applyAddOperation (.obj [("x", .num 1)]) "$" (some (.num 42)) =
      .ok (.num 42) := rfl

/-- C3 amended: an `add` whose (normalized) path is the document root
replaces the whole document with the operation's value, whatever its type —
there is no Object-only restriction. -/
theorem C3_root_add_accepts_any_value :
    ∀ (value newValue : JSONValue),
      applyAddOperation value "$" (some newValue) = .ok newValue :=
  fun _ _ => rfl

/-- C5: operations are applied strictly in list order, and the first failing
operation aborts the whole `ApplyPatch` call with that operation's typed
error; the operations after the failure point do not influence the result
(they are never attempted — the conclusion holds for every `rest`). -/
theorem C5_first_failure_aborts :
    ∀ (value : JSONValue) (pre : List PatchOperation) (failingOp : PatchOperation)
      (rest : List PatchOperation) (v : JSONValue) (e : PatchFail),
      applyOps (cloneRoot value) pre = .ok v →
      applyOperation v failingOp = .error e →
      ApplyPatch value (pre ++ failingOp :: rest) = .error e := by
  intro value pre f rest v e h1 h2
  unfold ApplyPatch
  rw [applyOps_append, h1]
  simp only [applyOps, h2]

/-- Witness for C5 at a concrete input: after a successful `add`, a failing
`remove` aborts with its PathNotFound error and the trailing `add` is never
applied. -/
theorem C5_first_failure_aborts_witness :
    applyOps (cloneRoot (.obj [("x", .num 1)]))
      [{ op := "add", path := "/y", value := some (.num 2) }] =
      .ok (.obj [("x", .num 1), ("y", .num 2)]) ∧
    applyOperation (.obj [("x", .num 1), ("y", .num 2)])
      { op := "remove", path := "/nope" } =
      .error (.jsonErr ⟨.pathNotFound, "路径不存在", "$.nope"⟩) ∧
    ApplyPatch (.obj [("x", .num 1)])
      ([{ op := "add", path := "/y", value := some (.num 2) }] ++
        { op := "remove", path := "/nope" } ::
          [{ op := "add", path := "/z", value := some (.num 3) }]) =
      .error (.jsonErr ⟨.pathNotFound, "路径不存在", "$.nope"⟩) :=
  ⟨rfl, rfl, C5_first_failure_aborts _ _ _ _ _ _ rfl rfl⟩

/-- C9: intermediate containers are never auto-created.  For D = `{"x":1}`,
adding at `/y/z` fails with PathNotFound on the missing parent `$.y`; and in
general any `add` whose parent path query yields no result (or an error)
fails with PathNotFound on the parent path. -/
theorem C9_no_intermediate_creation :
    (ApplyPatch (.obj [("x", .num 1)])
      [{ op := "add", path := "/y/z", value := some (.num 1) }] =
      .error (.jsonErr ⟨.pathNotFound, "父路径不存在", "$.y"⟩)) ∧
    (∀ (value newValue : JSONValue) (path parentPath lastSegment : String),
      path ≠ "$" →
      splitPath path = some (parentPath, lastSegment) →
      (queryPathLocs value parentPath = .ok [] ∨
        ∃ e, queryPathLocs value parentPath = .error e) →
      applyAddOperation value path (some newValue) =
        .error (.jsonErr ⟨.pathNotFound, "父路径不存在", parentPath⟩)) := by
  refine ⟨rfl, ?_⟩
  intro value nv path pp ls hroot hsplit hq
  have hbeq : (path == "$") = false := by
    simp [hroot]
  simp only [applyAddOperation, parseBytesToValue, hbeq, Bool.false_eq_true,
    if_false, hsplit]
  rcases hq with hq | ⟨e, hq⟩ <;> rw [hq] <;> rfl

/-- Witness for C9's general clause: D = `{"x":1}` with normalized path
`$.y.z` has parent path `$.y`, whose query returns no results. -/
theorem C9_no_intermediate_creation_witness :
    splitPath "$.y.z" = some ("$.y", "z") ∧
    queryPathLocs (.obj [("x", .num 1)]) "$.y" = .ok [] ∧
    applyAddOperation (.obj [("x", .num 1)]) "$.y.z" (some (.num 1)) =
      .error (.jsonErr ⟨.pathNotFound, "父路径不存在", "$.y"⟩) :=
  ⟨rfl, rfl,
    C9_no_intermediate_creation.2 _ _ "$.y.z" "$.y" "z" (by decide) rfl (Or.inl rfl)⟩

/-- C6 counterexample: for D = `{"x":1}` the add at `/x/y/z` has the
non-terminal segment `x` addressing a Number, yet the reported error kind is
PathNotFound, not InvalidType — the resolver's InvalidType error is
discarded by the patch engine's `err != nil || len(results) == 0` check. -/
theorem C6_counterexample_deep_scalar :
    ApplyPatch (.obj [("x", .num 1)])
      [{ op := "add", path := "/x/y/z", value := some (.num 1) }] =
      .error (.jsonErr ⟨.pathNotFound, "父路径不存在", "$.x.y"⟩) := rfl

/-- C6 amended: only when the scalar-addressing segment is the immediate
parent (the segment just before the final one) do `add`, `remove` and
`replace` fail with InvalidType; a scalar hit at an earlier segment surfaces
as PathNotFound (see the counterexample), and `test`/`move`/`copy` source
resolution likewise reports PathNotFound. -/
theorem C6_scalar_parent_invalid_type :
    ∀ (value newValue : JSONValue) (path parentPath lastSegment : String)
      (loc : List Step) (locs : List (List Step)),
      path ≠ "$" →
      splitPath path = some (parentPath, lastSegment) →
      queryPathLocs value parentPath = .ok (loc :: locs) →
      isScalar (getAtLoc value loc) = true →
      applyAddOperation value path (some newValue) =
        .error (.jsonErr ⟨.invalidType, "父路径必须是对象或数组", parentPath⟩) ∧
      applyRemoveOperation value path =
        .error (.jsonErr ⟨.invalidType, "父路径必须是对象或数组", parentPath⟩) ∧
      applyReplaceOperation value path (some newValue) =
        .error (.jsonErr ⟨.invalidType, "父路径必须是对象或数组", parentPath⟩) := by
  intro value nv path pp ls loc locs hroot hsplit hq hscalar
  have hbeq : (path == "$") = false := by simp [hroot]
  refine ⟨?_, ?_, ?_⟩ <;>
    simp only [applyAddOperation, applyRemoveOperation, applyReplaceOperation,
      parseBytesToValue, hbeq, Bool.false_eq_true, if_false, hsplit, hq] <;>
    cases hv : getAtLoc value loc <;>
      simp [hv, isScalar, JSONValue.isObject, JSONValue.isArray,
        newJSONError, JSONError.withPath] at hscalar ⊢

/-- Witness for C6's amended statement: D = `{"x":1}`, normalized path
`$.x.y`; the parent `$.x` resolves to the Number 1, and all three mutating
operations report InvalidType. -/
theorem C6_scalar_parent_invalid_type_witness :
    splitPath "$.x.y" = some ("$.x", "y") ∧
    queryPathLocs (.obj [("x", .num 1)]) "$.x" = .ok [[.key "x"]] ∧
    isScalar (getAtLoc (.obj [("x", .num 1)]) [.key "x"]) = true ∧
    applyAddOperation (.obj [("x", .num 1)]) "$.x.y" (some (.num 2)) =
      .error (.jsonErr ⟨.invalidType, "父路径必须是对象或数组", "$.x"⟩) :=
  ⟨rfl, rfl, rfl,
    (C6_scalar_parent_invalid_type (.obj [("x", .num 1)]) (.num 2) "$.x.y" "$.x" "y"
      [.key "x"] [] (by decide) rfl rfl rfl).1⟩

/-- C8: diffing a document against itself with `includeSame = false` (in
particular with the default options) yields an empty diff list, for every
document and whatever the other options are. -/
theorem C8_diff_self_empty :
    ∀ (d : JSONValue) (options : Option DiffOptions),
      (options.getD defaultDiffOptions).includeSame = false →
      DiffJSON d d options = [] :=
  fun _ options h => diffValuesF_self_nil _ _ _ (options.getD defaultDiffOptions) _ h

/-- Witness for C8 at a concrete nested document with the default options. -/
theorem C8_diff_self_empty_witness :
    ((none : Option DiffOptions).getD defaultDiffOptions).includeSame = false ∧
    DiffJSON (.obj [("a", .arr [.num 1, .str "x"]), ("b", .null)])
      (.obj [("a", .arr [.num 1, .str "x"]), ("b", .null)]) none = [] :=
  ⟨rfl, C8_diff_self_empty (.obj [("a", .arr [.num 1, .str "x"]), ("b", .null)]) none rfl⟩

/-- C7: diff kinds are anti-symmetric — whenever `DiffJSON A B` reports an
Added record at some path, `DiffJSON B A` with the same options reports a
Removed record at that same path. -/
theorem C7_added_removed_antisymmetry :
    ∀ (a b : JSONValue) (options : Option DiffOptions) (P : String)
      (oldV newV : JSONValue),
      (⟨.added, P, oldV, newV⟩ : Diff) ∈ DiffJSON a b options →
      ∃ d2 ∈ DiffJSON b a options, d2.dtype = .removed ∧ d2.path = P := by
  intro a b options P oldV newV h
  unfold DiffJSON at h ⊢
  rw [Nat.add_comm b.size a.size]
  exact diffValuesF_added_to_removed (a.size + b.size) "$" a b _ 0 _ h rfl

/-- Witness for C7: diffing `{}` against `{"k":1}` reports Added at `$.k`,
and the reverse diff reports Removed there. -/
theorem C7_added_removed_antisymmetry_witness :
    ((⟨.added, "$.k", .null, .num 1⟩ : Diff) ∈
      DiffJSON (.obj []) (.obj [("k", .num 1)]) none) ∧
    ∃ d2 ∈ DiffJSON (.obj [("k", .num 1)]) (.obj []) none,
      d2.dtype = .removed ∧ d2.path = "$.k" := by
  have hmem : (⟨.added, "$.k", .null, .num 1⟩ : Diff) ∈
      DiffJSON (.obj []) (.obj [("k", .num 1)]) none := by
    rw [show DiffJSON (.obj []) (.obj [("k", .num 1)]) none =
      [⟨.added, "$.k", .null, .num 1⟩] from rfl]
    exact List.mem_singleton.mpr rfl
  exact ⟨hmem, C7_added_removed_antisymmetry _ _ none "$.k" _ _ hmem⟩

/-- C4: `applyPatch(D, [{"op":"test","path":P,"value":v}])` succeeds iff the
value addressed by P in D deep-equals v, in the claim's sense of deep
equality (`SpecEq`: same-type scalars with equal values, arrays element-wise
in order, objects by key set); on success the returned document is D itself,
and — in the heap model — the test operation leaves the heap and the root
untouched, so D is not mutated.  Well-formedness (unique object keys, the
data model's invariant) is assumed for both documents. -/
theorem C4_test_operation_semantics :
    (∀ (d v : JSONValue) (P : String),
      wfB d = true → wfB v = true →
      (((∃ r, ApplyPatch d [{ op := "test", path := P, value := some v }] = .ok r) ↔
        (∃ t, addressedValue d P = some t ∧ SpecEq t v)) ∧
       (∀ r, ApplyPatch d [{ op := "test", path := P, value := some v }] = .ok r →
         r = d))) ∧
    (∀ (h : Heap) (root : Nat) (p : String) (rv : Option JSONValue)
      (h2 : Heap) (r2 : Nat),
      happlyTestOperation h root p rv = .ok (h2, r2) → h2 = h ∧ r2 = root) := by
  constructor
  · intro d v P hwd hwv
    have hop : ∀ x : JSONValue,
        applyOperation x { op := "test", path := P, value := some v } =
          applyTestOperation x (normalizePath P) (some v) := fun _ => rfl
    have hA : ApplyPatch d [{ op := "test", path := P, value := some v }] =
        (match applyTestOperation d (normalizePath P) (some v) with
         | .error e => .error e
         | .ok v2 => .ok v2) := by
      unfold ApplyPatch
      rw [cloneRoot_eq]
      simp only [applyOps, hop]
    have hT : applyTestOperation d (normalizePath P) (some v) =
        (match queryJSONPath d (normalizePath P) with
         | .error _ =>
           .error (.jsonErr ((newJSONError .pathNotFound "路径不存在").withPath
             (normalizePath P)))
         | .ok [] =>
           .error (.jsonErr ((newJSONError .pathNotFound "路径不存在").withPath
             (normalizePath P)))
         | .ok (t :: _) =>
           if !compareValues t v then
             .error (.jsonErr (errTestFailedWithDetails (normalizePath P) v t))
           else .ok d) := rfl
    cases hq : queryJSONPath d (normalizePath P) with
    | error e =>
      have hres : ApplyPatch d [{ op := "test", path := P, value := some v }] =
          .error (.jsonErr ((newJSONError .pathNotFound "路径不存在").withPath
            (normalizePath P))) := by
        rw [hA, hT, hq]
      refine ⟨⟨?_, ?_⟩, ?_⟩
      · rintro ⟨r, hr⟩
        rw [hres] at hr
        exact Except.noConfusion hr
      · rintro ⟨t, ht, _⟩
        unfold addressedValue at ht
        rw [hq] at ht
        exact Option.noConfusion ht
      · intro r hr
        rw [hres] at hr
        exact Except.noConfusion hr
    | ok l =>
      cases l with
      | nil =>
        have hres : ApplyPatch d [{ op := "test", path := P, value := some v }] =
            .error (.jsonErr ((newJSONError .pathNotFound "路径不存在").withPath
              (normalizePath P))) := by
          rw [hA, hT, hq]
        refine ⟨⟨?_, ?_⟩, ?_⟩
        · rintro ⟨r, hr⟩
          rw [hres] at hr
          exact Except.noConfusion hr
        · rintro ⟨t, ht, _⟩
          unfold addressedValue at ht
          rw [hq] at ht
          exact Option.noConfusion ht
        · intro r hr
          rw [hres] at hr
          exact Except.noConfusion hr
      | cons t ts =>
        have haddr : addressedValue d P = some t := by
          unfold addressedValue
          rw [hq]
        have hwt : wfB t = true :=
          queryJSONPath_wf hq hwd t (List.mem_cons_self t ts)
        have hiff : compareValues t v = true ↔ SpecEq t v :=
          compareValuesF_iff_specEq t.size t v (Nat.le_refl _) hwt hwv
        by_cases hcmp : compareValues t v = true
        · have htest : applyTestOperation d (normalizePath P) (some v) = .ok d := by
            rw [hT, hq]
            show (if (!compareValues t v) = true then
                Except.error (PatchFail.jsonErr (errTestFailedWithDetails (normalizePath P) v t))
              else Except.ok d) = Except.ok d
            rw [if_neg (by simp [hcmp])]
          have hres : ApplyPatch d [{ op := "test", path := P, value := some v }] =
              .ok d := by
            rw [hA, htest]
          refine ⟨⟨?_, ?_⟩, ?_⟩
          · intro _
            exact ⟨t, haddr, hiff.mp hcmp⟩
          · intro _
            exact ⟨d, hres⟩
          · intro r hr
            rw [hres] at hr
            injection hr with h2
            exact h2.symm
        · have htest : applyTestOperation d (normalizePath P) (some v) =
              .error (.jsonErr (errTestFailedWithDetails (normalizePath P) v t)) := by
            rw [hT, hq]
            show (if (!compareValues t v) = true then
                Except.error (PatchFail.jsonErr (errTestFailedWithDetails (normalizePath P) v t))
              else Except.ok d) =
              Except.error (PatchFail.jsonErr (errTestFailedWithDetails (normalizePath P) v t))
            rw [if_pos (by simp [hcmp])]
          have hres : ApplyPatch d [{ op := "test", path := P, value := some v }] =
              .error (.jsonErr (errTestFailedWithDetails (normalizePath P) v t)) := by
            rw [hA, htest]
          refine ⟨⟨?_, ?_⟩, ?_⟩
          · rintro ⟨r, hr⟩
            rw [hres] at hr
            exact Except.noConfusion hr
          · rintro ⟨t2, ht2, hse⟩
            rw [haddr] at ht2
            injection ht2 with ht3
            subst ht3
            exact absurd (hiff.mpr hse) hcmp
          · intro r hr
            rw [hres] at hr
            exact Except.noConfusion hr
  · intro h root p rv h2 r2 hOk
    unfold happlyTestOperation at hOk
    cases rv with
    | none => exact Except.noConfusion hOk
    | some v =>
      simp only [parseBytesToValue] at hOk
      cases hq : hqueryJSONPath h root p with
      | error e => rw [hq] at hOk; exact Except.noConfusion hOk
      | ok l =>
        rw [hq] at hOk
        cases l with
        | nil => exact Except.noConfusion hOk
        | cons ta rest =>
          replace hOk : (if (!compareValues (readTree h ta) v) = true then
              (Except.error (PatchFail.jsonErr (errTestFailedWithDetails p v (readTree h ta)))
                : Except PatchFail (Heap × Nat))
            else Except.ok (h, root)) = Except.ok (h2, r2) := hOk
          by_cases hc : (!compareValues (readTree h ta) v) = true
          · rw [if_pos hc] at hOk
            exact Except.noConfusion hOk
          · rw [if_neg hc] at hOk
            injection hOk with hpair
            rw [Prod.mk.injEq] at hpair
            exact ⟨hpair.1.symm, hpair.2.symm⟩

/-- Witness for C4 at D = `{"a":1}`, P = `/a`, v = 1: the hypotheses hold and
the test succeeds with the addressed value deep-equal to v. -/
theorem C4_test_operation_semantics_witness :
    wfB (.obj [("a", .num 1)]) = true ∧ wfB (.num 1) = true ∧
    ((∃ r, ApplyPatch (.obj [("a", .num 1)])
        [{ op := "test", path := "/a", value := some (.num 1) }] = .ok r) ↔
      (∃ t, addressedValue (.obj [("a", .num 1)]) "/a" = some t ∧ SpecEq t (.num 1))) :=
  ⟨by decide, by decide,
    ((C4_test_operation_semantics.1 (.obj [("a", .num 1)]) (.num 1) "/a"
      (by decide) (by decide)).1)⟩

/-- C10 (implicit): an `add` into an array with a numeric index strictly
beyond the array's length reports no error: `parseArrayIndex` accepts any
non-negative parse, the insertion loop's `i == index` branch is never hit,
and the final `arr.Get(size)` read is out of range and yields Null — so the
result has length n+1, ends in Null, and the operation's value was silently
dropped. -/
theorem C10_add_beyond_end (elems : List JSONValue) (v : JSONValue) (s : String)
    (i : Int) (hidx : isArrayIndex s = true) (hsc : sscanfInt s = some i)
    (hlt : (elems.length : Int) < i) :
    ApplyPatch (JSONValue.arr elems)
      [{ op := "add", path := "/" ++ s, value := some v }] =
      .ok (JSONValue.arr (elems ++ [JSONValue.null])) ∧
    (elems ++ [JSONValue.null]).length = elems.length + 1 ∧
    (elems ++ [JSONValue.null]).getLast? = some JSONValue.null ∧
    (v ≠ JSONValue.null → v ∉ elems → v ∉ elems ++ [JSONValue.null]) := by
  refine ⟨?_, by simp, List.getLast?_concat _, ?_⟩
  · obtain ⟨sd⟩ := s
    have hall : (String.mk sd).data.all isDigitGo = true := isArrayIndex_all_digits hidx
    have hnp : normalizePath ("/" ++ String.mk sd) = "$[" ++ String.mk sd ++ "]" :=
      normalizePath_slash_index (String.mk sd) hidx
    have hsp : splitPath ("$[" ++ String.mk sd ++ "]") = some ("$", String.mk sd) :=
      splitPath_root_bracket (String.mk sd)
        (not_mem_of_all_digits hall (by decide))
        (not_mem_of_all_digits hall (by decide))
    have hne : (("$[" ++ String.mk sd ++ "]") == "$") = false := rfl
    have hdash : (String.mk sd == "-") = false := by
      cases hd : (String.mk sd == "-")
      · rfl
      · exfalso
        have hseq : String.mk sd = "-" := eq_of_beq hd
        rw [hseq] at hsc
        exact Option.noConfusion hsc
    have hpa : parseArrayIndex (String.mk sd) elems.length = .ok i := by
      unfold parseArrayIndex
      rw [hdash]
      simp only [Bool.false_eq_true, if_false]
      rw [hsc]
      show (if i < 0 then
          (Except.error (newJSONError .invalidIndex "无效的数组索引")
            : Except JSONError Int)
        else .ok i) = .ok i
      rw [if_neg (by
        intro hneg
        have h0 : (0 : Int) ≤ (elems.length : Int) := Int.ofNat_nonneg _
        exact absurd (lt_trans hneg (lt_of_le_of_lt h0 hlt)) (lt_irrefl i))]
    have hbne : (i == (elems.length : Int)) = false :=
      beq_eq_false_iff_ne.mpr (fun heq => absurd (heq ▸ hlt) (lt_irrefl _))
    have hq : queryPathLocs (JSONValue.arr elems) "$" = .ok [[]] := rfl
    have hcg : (List.range (elems.length + 1)).map
        (fun (n : Nat) => if (n : Int) < i then arrGet elems n
          else if (n : Int) == i then v else arrGet elems (n - 1)) =
        (List.range (elems.length + 1)).map (fun n => arrGet elems n) := by
      refine List.map_congr_left ?_
      intro j hj
      have hj1 : j < elems.length + 1 := List.mem_range.mp hj
      have hjle : (j : Int) ≤ (elems.length : Int) := by
        exact_mod_cast Nat.lt_succ_iff.mp hj1
      rw [if_pos (lt_of_le_of_lt hjle hlt)]
    have hadd : applyAddOperation (JSONValue.arr elems)
        ("$[" ++ String.mk sd ++ "]") (some v) =
        .ok (JSONValue.arr (elems ++ [JSONValue.null])) := by
      simp only [applyAddOperation, parseBytesToValue, hne, Bool.false_eq_true,
        if_false, hsp, hq, getAtLoc, hpa, hbne]
      show Except.ok (JSONValue.arr ((List.range (elems.length + 1)).map
          (fun (n : Nat) => if (n : Int) < i then arrGet elems n
            else if (n : Int) == i then v else arrGet elems (n - 1)))) =
        (Except.ok (JSONValue.arr (elems ++ [JSONValue.null]))
          : Except PatchFail JSONValue)
      rw [hcg, range_map_arrGet]
    have hop : applyOperation (JSONValue.arr elems)
        { op := "add", path := "/" ++ String.mk sd, value := some v } =
        .ok (JSONValue.arr (elems ++ [JSONValue.null])) := by
      show applyAddOperation (JSONValue.arr elems)
        (normalizePath ("/" ++ String.mk sd)) (some v) = _
      rw [hnp]
      exact hadd
    show applyOps (cloneRoot (JSONValue.arr elems))
      [{ op := "add", path := "/" ++ String.mk sd, value := some v }] = _
    have hfin : applyOps (JSONValue.arr elems)
        [{ op := "add", path := "/" ++ String.mk sd, value := some v }] =
        .ok (JSONValue.arr (elems ++ [JSONValue.null])) := by
      simp only [applyOps, hop]
    exact hfin
  · intro hnv hmem hcontra
    rcases List.mem_append.mp hcontra with h | h
    · exact hmem h
    · exact hnv (List.mem_singleton.mp h)

/-- Witness for C10 at the array `[7]` and the operation
`add "/5" "v"`: no error, result `[7, null]` of length 2 ending in Null,
and the value `"v"` is not in it. -/
theorem C10_add_beyond_end_witness :
    ApplyPatch (JSONValue.arr [JSONValue.num 7])
      [{ op := "add", path := "/" ++ "5", value := some (JSONValue.str "v") }] =
      .ok (JSONValue.arr ([JSONValue.num 7] ++ [JSONValue.null])) ∧
    ([JSONValue.num 7] ++ [JSONValue.null]).length = [JSONValue.num 7].length + 1 ∧
    ([JSONValue.num 7] ++ [JSONValue.null]).getLast? = some JSONValue.null ∧
    (JSONValue.str "v" ≠ JSONValue.null → JSONValue.str "v" ∉ [JSONValue.num 7] →
      JSONValue.str "v" ∉ [JSONValue.num 7] ++ [JSONValue.null]) :=
  C10_add_beyond_end [JSONValue.num 7] (JSONValue.str "v") "5" 5
    (by decide) rfl (by decide)

end Gojson
